import Mathlib

/-!
Verification of the rainwater flow/pooling engine.

A shallow embedding of the recursive rainfall-redistribution engine of
`src/env.rs` (struct `Environment` and its methods `new`, `add_sides`,
`new_rain`, `rain`, `flow`, `handle_valley`, `handle_peak`,
`handle_l_plateau`, `handle_s_plateau`, `handle_downwards`).

Modelling choices:
* `f32` arithmetic is embedded as exact rational arithmetic (`ℚ`).
  `f32::MAX` becomes the exact rational `(2^24 - 1) * 2^104` and
  `f32::EPSILON` becomes `1 / 2^23` (their exact real values).
* The mutually recursive methods are embedded as a single structurally
  fuel-indexed interpreter `exec` over a `Call` tag (one constructor per
  source method), with named wrappers `flow`, `handle_valley`, … so that
  each wrapper corresponds to one source function.  Running out of fuel
  yields the distinguished result `RRes.outOfFuel`.
* A Rust index-out-of-bounds panic is embedded as `RRes.idxErr` and the
  trailing `unimplemented!` branch of `flow` as `RRes.unclassified`.
-/

namespace Rainwater

/-- One terrain cell: fixed height plus mutable accumulated water
(source: `struct Column` in `env.rs`). -/
structure Column where
  height : ℚ
  water : ℚ
deriving DecidableEq, Repr

/-- `Column::new(height)` — zero initial water. -/
def Column.new (h : ℚ) : Column := ⟨h, 0⟩

/-- `Column::water_level` — height plus water. -/
def Column.waterLevel (c : Column) : ℚ := c.height + c.water

/-- `Column::add_water`. -/
def Column.addWater (c : Column) (w : ℚ) : Column := ⟨c.height, c.water + w⟩

/-- The exact rational value of `f32::MAX`, the height of the two sentinel
walls: `(2 ^ 24 - 1) * 2 ^ 104`, written as a plain numeral. -/
def fMAX : ℚ :=
  ⟨Int.ofNat 340282346638528859811704183484516925440, 1, Nat.one_ne_zero,
   Nat.coprime_one_right _⟩

/-- The exact rational value of `f32::EPSILON` (`2 ^ (-23)`), the source's
threshold for "no packet to place", written as a plain fraction. -/
def EPSILON : ℚ := ⟨Int.ofNat 1, 8388608, by norm_num, Nat.coprime_one_left _⟩

/-- The simulation state: the columns (walls included) and the rain bank
(source: `struct Environment { columns, rain }`). -/
structure Env where
  columns : List Column
  rain : List ℚ
deriving DecidableEq, Repr

/-- `Environment::add_sides` — prepend and append a wall of height
`f32::MAX`. -/
def addSides (e : Env) : Env :=
  { e with columns := Column.new fMAX :: (e.columns ++ [Column.new fMAX]) }

/-- `Environment::new` — build the columns from the input relief and add the
sentinel walls; the bank starts as zeros (it is re-initialised by `rain`). -/
def Env.new (heights : List ℕ) : Env :=
  addSides
    { rain := List.replicate heights.length 0
      columns := heights.map fun (h : ℕ) => Column.new (h : ℚ) }

/-- The bank-claiming core of `Environment::new_rain`: read entry `pos - 1`,
zero it if it was nonzero, and return the value read together with the
updated bank.  `none` models the index-out-of-bounds panic. -/
def bankClaim (bank : List ℚ) (pos : ℕ) : Option (ℚ × List ℚ) :=
  match bank.get? (pos - 1) with
  | none => none
  | some r => some (r, if r ≠ 0 then bank.set (pos - 1) 0 else bank)

/-- `Environment::new_rain` — drain the bank entry for position `pos`. -/
def new_rain (e : Env) (pos : ℕ) : Option (ℚ × Env) :=
  match bankClaim e.rain pos with
  | none => none
  | some (r, b) => some (r, { e with rain := b })

/-- Result of running the engine: either a backwater value and the final
state, or one of the three abnormal outcomes (fuel exhaustion of the
embedding, an index-out-of-bounds panic, the `unimplemented!` abort). -/
inductive RRes where
  | ok (backwater : ℚ) (env : Env)
  | outOfFuel
  | idxErr
  | unclassified
deriving DecidableEq, Repr

/-- The seven handlers of the dispatch table in `flow`. -/
inductive Topo where
  | valley
  | peak
  | downwards
  | sPlateau
  | lPlateau
  | upwards
  | level
deriving DecidableEq, Repr

/-- The topology dispatch chain of `Environment::flow`, branch for branch in
source order, on the three water levels; `none` is the trailing
`unimplemented!` case. -/
def classify (prev curr next : ℚ) : Option Topo :=
  if prev > curr ∧ next > curr then some .valley
  else if prev < curr ∧ next < curr then some .peak
  else if prev ≥ curr ∧ next < curr then some .downwards
  else if prev < curr ∧ next = curr then some .sPlateau
  else if prev > curr then some .lPlateau
  else if prev < curr ∧ next > curr then some .upwards
  else if prev = curr ∧ next ≥ curr then some .level
  else none

/-- The rightward scan loop shared by `handle_l_plateau` and
`handle_s_plateau`: extend `endPos` while water levels stay equal to the one
at `pos`, claiming the bank at every extension.  The counter argument only
bounds the structural recursion; callers pass `cols.length`, which the scan
can never exhaust before an index check fails, so the `0` case is mapped to
the same out-of-bounds outcome. -/
def scanPlateau (cols : List Column) (pos : ℕ) (count : ℕ) (endPos : ℕ)
    (w : ℚ) (bank : List ℚ) : Option (ℕ × ℚ × List ℚ) :=
  match count with
  | 0 =>
    match cols.get? pos, cols.get? endPos with
    | some cp, some ce =>
      if cp.waterLevel = ce.waterLevel then none else some (endPos, w, bank)
    | _, _ => none
  | count + 1 =>
    match cols.get? pos, cols.get? endPos with
    | some cp, some ce =>
      if cp.waterLevel = ce.waterLevel then
        match bankClaim bank endPos with
        | none => none
        | some (r, bank') => scanPlateau cols pos count (endPos + 1) (w + r) bank'
      else some (endPos, w, bank)
    | _, _ => none

/-- The deposit loop of `handle_valley`: `for pos in curr_pos..end_pos`
add `nw` to the column and subtract `nw` from the in-flight packet.
`count` is `end_pos - curr_pos`, the number of loop iterations. -/
def valleyFill (cols : List Column) (pos : ℕ) (count : ℕ) (nw : ℚ) (w : ℚ) :
    Option (List Column × ℚ) :=
  match count with
  | 0 => some (cols, w)
  | count + 1 =>
    match cols.get? pos with
    | none => none
    | some c => valleyFill (cols.set pos (c.addWater nw)) (pos + 1) count nw (w - nw)

/-- One call frame of the mutually recursive engine: one constructor per
source method. -/
inductive Call where
  | flow (pos : ℕ) (w : ℚ)
  | valley (pos : ℕ) (w leftDiff rightDiff : ℚ) (endPos : ℕ)
  | peak (pos : ℕ) (w : ℚ) (endPos : ℕ)
  | lPlateau (pos : ℕ) (w leftDiff : ℚ)
  | sPlateau (pos : ℕ) (w : ℚ)
  | downwards (pos : ℕ) (w : ℚ)
deriving DecidableEq, Repr

/-- One step of the mutually recursive engine: the body of the six source
methods, with `rec` standing for the recursive calls.  Each `Call` case is
the body of the corresponding source method. -/
def execBody (rec : Env → Call → RRes) (e : Env) (c : Call) : RRes :=
  match c with
  | .flow pos w =>
    if pos ≥ e.columns.length - 1 then .ok w e
    else
      match new_rain e pos with
      | none => .idxErr
      | some (r, e1) =>
        let w := w + r
        if w < EPSILON then rec e1 (.flow (pos + 1) 0)
        else
          match e1.columns.get? (pos - 1), e1.columns.get? pos,
              e1.columns.get? (pos + 1) with
          | some prevC, some currC, some nextC =>
            let diffLeft := prevC.waterLevel - currC.waterLevel
            let diffRight := nextC.waterLevel - currC.waterLevel
            match classify prevC.waterLevel currC.waterLevel nextC.waterLevel with
            | some .valley => rec e1 (.valley pos w diffLeft diffRight (pos + 1))
            | some .peak => rec e1 (.peak pos w (pos + 1))
            | some .downwards => rec e1 (.downwards pos w)
            | some .sPlateau => rec e1 (.sPlateau pos w)
            | some .lPlateau => rec e1 (.lPlateau pos w diffLeft)
            | some .upwards => .ok w e1
            | some .level => .ok w e1
            | none => .unclassified
          | _, _, _ => .idxErr
  | .valley pos w leftDiff rightDiff endPos =>
    let nw := min (w / ((endPos - pos : ℕ) : ℚ)) (min leftDiff rightDiff)
    match valleyFill e.columns pos (endPos - pos) nw w with
    | none => .idxErr
    | some (cols', w') =>
      let e1 : Env := { e with columns := cols' }
      if w' > 0 then
        if rightDiff > leftDiff then .ok w' e1
        else if rightDiff < leftDiff then rec e1 (.flow pos w')
        else
          match rec e1 (.flow endPos (w' * (1 / 2))) with
          | .ok fb e2 => .ok ((1 / 2) * w' + fb) e2
          | err => err
      else
        match rec e1 (.flow endPos 0) with
        | .ok b2 e2 => if b2 > 0 then rec e2 (.flow pos b2) else .ok 0 e2
        | err => err
  | .peak _pos w endPos =>
    match rec e (.flow endPos ((1 / 2) * w)) with
    | .ok fb e1 => .ok ((1 / 2) * w + fb) e1
    | err => err
  | .lPlateau pos w leftDiff =>
    match scanPlateau e.columns pos e.columns.length (pos + 1) w e.rain with
    | none => .idxErr
    | some (endPos, w1, bank1) =>
      let e1 : Env := { e with rain := bank1 }
      match e1.columns.get? endPos, e1.columns.get? pos with
      | some ce, some cp =>
        let rightDiff := ce.waterLevel - cp.waterLevel
        if rightDiff > 0 then rec e1 (.valley pos w1 leftDiff rightDiff endPos)
        else
          match rec e1 (.flow endPos w1) with
          | .ok bw e2 => rec e2 (.flow pos bw)
          | err => err
      | _, _ => .idxErr
  | .sPlateau pos w =>
    match scanPlateau e.columns pos e.columns.length (pos + 1) w e.rain with
    | none => .idxErr
    | some (endPos, w1, bank1) =>
      let e1 : Env := { e with rain := bank1 }
      match e1.columns.get? endPos, e1.columns.get? pos with
      | some ce, some cp =>
        let rightDiff := ce.waterLevel - cp.waterLevel
        if rightDiff < 0 then rec e1 (.peak pos w1 endPos)
        else .ok w1 e1
      | _, _ => .idxErr
  | .downwards pos w =>
    match rec e (.flow (pos + 1) w) with
    | .ok bw e1 => rec e1 (.flow pos bw)
    | err => err

/-- The fuel-indexed interpreter for the six mutually recursive methods of
`Environment`: every recursive call is made at one unit less fuel. -/
def exec (fuel : ℕ) (e : Env) (c : Call) : RRes :=
  match fuel with
  | 0 => .outOfFuel
  | fuel + 1 => execBody (exec fuel) e c

theorem exec_succ (fuel : ℕ) (e : Env) (c : Call) :
    exec (fuel + 1) e c = execBody (exec fuel) e c := rfl

/-- `Environment::flow`. -/
def flow (fuel : ℕ) (e : Env) (pos : ℕ) (w : ℚ) : RRes :=
  exec fuel e (.flow pos w)

/-- `Environment::handle_valley`. -/
def handle_valley (fuel : ℕ) (e : Env) (pos : ℕ) (w leftDiff rightDiff : ℚ)
    (endPos : ℕ) : RRes :=
  exec fuel e (.valley pos w leftDiff rightDiff endPos)

/-- `Environment::handle_peak`. -/
def handle_peak (fuel : ℕ) (e : Env) (pos : ℕ) (w : ℚ) (endPos : ℕ) : RRes :=
  exec fuel e (.peak pos w endPos)

/-- `Environment::handle_l_plateau`. -/
def handle_l_plateau (fuel : ℕ) (e : Env) (pos : ℕ) (w leftDiff : ℚ) : RRes :=
  exec fuel e (.lPlateau pos w leftDiff)

/-- `Environment::handle_s_plateau`. -/
def handle_s_plateau (fuel : ℕ) (e : Env) (pos : ℕ) (w : ℚ) : RRes :=
  exec fuel e (.sPlateau pos w)

/-- `Environment::handle_downwards`. -/
def handle_downwards (fuel : ℕ) (e : Env) (pos : ℕ) (w : ℚ) : RRes :=
  exec fuel e (.downwards pos w)

/-- The driver loop of `Environment::rain`:
`while backwater > 0 { backwater = self.flow(1, backwater) }`. -/
def rainLoop (fuel : ℕ) (e : Env) (b : ℚ) : RRes :=
  match fuel with
  | 0 => .outOfFuel
  | fuel + 1 =>
    if b > 0 then
      match flow fuel e 1 b with
      | .ok b' e' => rainLoop fuel e' b'
      | err => err
    else .ok 0 e

/-- `Environment::rain` — reset the bank to `rain_hours` per interior
column, run `flow(1, 0)`, re-feed any backwater until it is zero, and
return the hard-coded remainder `0`. -/
def Environment.rain (fuel : ℕ) (e : Env) (rainHours : ℚ) : RRes :=
  let e1 : Env := { e with rain := List.replicate (e.columns.length - 2) rainHours }
  match flow fuel e1 1 0 with
  | .ok b e2 =>
    match rainLoop fuel e2 b with
    | .ok _ ef => .ok 0 ef
    | err => err
  | err => err

/-- Water levels of the interior columns (walls stripped), in order. -/
def interiorLevels (e : Env) : List ℚ :=
  ((e.columns.drop 1).dropLast).map Column.waterLevel

/-- Water depths of the interior columns (walls stripped), in order. -/
def interiorWaters (e : Env) : List ℚ :=
  ((e.columns.drop 1).dropLast).map Column.water

/-- Total water currently held by a list of columns. -/
def colWaterSum (cols : List Column) : ℚ := (cols.map Column.water).sum

/-- Total water pending in a bank. -/
def bankSum (bank : List ℚ) : ℚ := bank.sum

/-- Every bank entry is non-negative. -/
def bankNN (bank : List ℚ) : Prop := ∀ x ∈ bank, 0 ≤ x

/-- The position argument of a call frame. -/
def Call.posOf : Call → ℕ
  | .flow p _ => p
  | .valley p _ _ _ _ => p
  | .peak p _ _ => p
  | .lPlateau p _ _ => p
  | .sPlateau p _ => p
  | .downwards p _ => p

/-- The in-flight packet argument of a call frame. -/
def Call.wOf : Call → ℚ
  | .flow _ w => w
  | .valley _ w _ _ _ => w
  | .peak _ w _ => w
  | .lPlateau _ w _ => w
  | .sPlateau _ w => w
  | .downwards _ w => w

section HelperLemmas

theorem sum_set_zero (l : List ℚ) (i : ℕ) (x : ℚ) (h : l.get? i = some x) :
    (l.set i 0).sum = l.sum - x := by
  induction l generalizing i with
  | nil => simp at h
  | cons a l ih =>
    cases i with
    | zero =>
      simp only [List.get?] at h
      cases h
      simp only [List.set, List.sum_cons]
      ring
    | succ i =>
      simp only [List.get?] at h
      simp only [List.set, List.sum_cons, ih i h]
      ring

theorem colWaterSum_set_add (cols : List Column) (i : ℕ) (c : Column) (nw : ℚ)
    (h : cols.get? i = some c) :
    colWaterSum (cols.set i (c.addWater nw)) = colWaterSum cols + nw := by
  induction cols generalizing i with
  | nil => simp at h
  | cons a l ih =>
    cases i with
    | zero =>
      simp only [List.get?] at h
      cases h
      simp [List.set, colWaterSum, Column.addWater]
      ring
    | succ i =>
      simp only [List.get?] at h
      simp only [List.set, colWaterSum, List.map, List.sum_cons] at *
      rw [ih i h]
      ring

theorem bankNN_of_get? {bank : List ℚ} (h : ∀ j x, bank.get? j = some x → 0 ≤ x) :
    bankNN bank := by
  intro x hx
  rcases List.mem_iff_get?.mp hx with ⟨j, hj⟩
  exact h j x hj

theorem get?_of_bankNN {bank : List ℚ} (h : bankNN bank) {j : ℕ} {x : ℚ}
    (hj : bank.get? j = some x) : 0 ≤ x :=
  h x (List.get?_mem hj)

/-- Everything `bankClaim` guarantees about a successful claim. -/
theorem bankClaim_ok {bank : List ℚ} {pos : ℕ} {r : ℚ} {bank' : List ℚ}
    (h : bankClaim bank pos = some (r, bank')) :
    bank.get? (pos - 1) = some r ∧
    bank'.length = bank.length ∧
    bank'.get? (pos - 1) = some 0 ∧
    (∀ j, j ≠ pos - 1 → bank'.get? j = bank.get? j) ∧
    (∀ j, bank'.get? j = bank.get? j ∨ bank'.get? j = some 0) ∧
    r + bankSum bank' = bankSum bank := by
  unfold bankClaim at h
  cases hg : bank.get? (pos - 1) with
  | none => rw [hg] at h; exact absurd h (by simp)
  | some r0 =>
    rw [hg] at h
    simp only [Option.some.injEq, Prod.mk.injEq] at h
    obtain ⟨hr0, hb⟩ := h
    subst hr0
    by_cases hr : r0 = 0
    · rw [if_neg (by simp [hr])] at hb
      subst hb
      subst hr
      exact ⟨rfl, rfl, hg, fun j _ => rfl, fun j => Or.inl rfl, by simp [bankSum]⟩
    · rw [if_pos hr] at hb
      subst hb
      have hlt : pos - 1 < bank.length := by
        by_contra hge
        rw [List.get?_len_le (by omega)] at hg
        exact Option.noConfusion hg
      refine ⟨rfl, by simp, ?_, ?_, ?_, ?_⟩
      · rw [List.get?_set_eq_of_lt _ hlt]
      · intro j hj
        exact List.get?_set_ne _ _ (fun h => hj h.symm)
      · intro j
        by_cases hj : j = pos - 1
        · subst hj; right; rw [List.get?_set_eq_of_lt _ hlt]
        · left; exact List.get?_set_ne _ _ (fun h => hj h.symm)
      · have := sum_set_zero bank (pos - 1) r0 hg
        simp only [bankSum]
        rw [this]; ring

/-- Everything `new_rain` guarantees about a successful claim. -/
theorem new_rain_ok {e : Env} {pos : ℕ} {r : ℚ} {e1 : Env}
    (h : new_rain e pos = some (r, e1)) :
    e1.columns = e.columns ∧
    e.rain.get? (pos - 1) = some r ∧
    e1.rain.length = e.rain.length ∧
    e1.rain.get? (pos - 1) = some 0 ∧
    (∀ j, j ≠ pos - 1 → e1.rain.get? j = e.rain.get? j) ∧
    (∀ j, e1.rain.get? j = e.rain.get? j ∨ e1.rain.get? j = some 0) ∧
    r + bankSum e1.rain = bankSum e.rain := by
  unfold new_rain at h
  rcases hc : bankClaim e.rain pos with _ | ⟨r0, b0⟩
  · rw [hc] at h; simp at h
  rw [hc] at h
  simp only [Option.some.injEq, Prod.mk.injEq] at h
  rcases h with ⟨rfl, rfl⟩
  obtain ⟨h1, h2, h3, h4, h5, h6⟩ := bankClaim_ok hc
  exact ⟨rfl, h1, h2, h3, h4, h5, h6⟩

theorem bankNN_claim {bank : List ℚ} {pos : ℕ} {r : ℚ} {bank' : List ℚ}
    (hnn : bankNN bank) (h : bankClaim bank pos = some (r, bank')) :
    0 ≤ r ∧ bankNN bank' := by
  obtain ⟨h1, _, _, _, h5, _⟩ := bankClaim_ok h
  refine ⟨get?_of_bankNN hnn h1, bankNN_of_get? fun j x hj => ?_⟩
  rcases h5 j with hu | hz
  · exact get?_of_bankNN hnn (hu ▸ hj)
  · rw [hj] at hz
    cases hz
    exact le_refl 0

/-- Everything `valleyFill` guarantees about a successful deposit loop:
the packet decreases by `count * nw`, each column of `[pos, pos + count)`
gains exactly `nw`, all other columns are untouched, and the total column
water rises by `count * nw`. -/
theorem valleyFill_ok :
    ∀ (count : ℕ) (cols : List Column) (pos : ℕ) (nw w : ℚ)
      (cols' : List Column) (w' : ℚ),
      valleyFill cols pos count nw w = some (cols', w') →
      w' = w - count * nw ∧
      cols'.length = cols.length ∧
      (∀ j, j < pos ∨ pos + count ≤ j → cols'.get? j = cols.get? j) ∧
      (∀ j, pos ≤ j → j < pos + count →
        cols'.get? j = (cols.get? j).map (fun c => c.addWater nw)) ∧
      colWaterSum cols' = colWaterSum cols + count * nw := by
  intro count
  induction count with
  | zero =>
    intro cols pos nw w cols' w' h
    unfold valleyFill at h
    simp only [Option.some.injEq, Prod.mk.injEq] at h
    obtain ⟨rfl, rfl⟩ := h
    refine ⟨by ring, rfl, fun j _ => rfl, fun j h1 h2 => absurd h2 (by omega), by ring⟩
  | succ count ih =>
    intro cols pos nw w cols' w' h
    unfold valleyFill at h
    cases hg : cols.get? pos with
    | none => rw [hg] at h; exact absurd h (by simp)
    | some c =>
      rw [hg] at h
      obtain ⟨h1, h2, h3, h4, h5⟩ := ih _ _ _ _ _ _ h
      have hlt : pos < cols.length := by
        by_contra hge
        rw [List.get?_len_le (by omega)] at hg
        exact Option.noConfusion hg
      refine ⟨by rw [h1]; push_cast; ring, by rw [h2]; simp, ?_, ?_, ?_⟩
      · intro j hj
        rw [h3 j (by omega)]
        exact List.get?_set_ne _ _ (by omega)
      · intro j hj1 hj2
        by_cases hje : j = pos
        · subst hje
          rw [h3 j (by omega), List.get?_set_eq_of_lt _ hlt, hg]
          rfl
        · rw [h4 j (by omega) (by omega), List.get?_set_ne _ _ (by omega)]
      · rw [h5, colWaterSum_set_add cols pos c nw hg]
        push_cast
        ring

/-- `valleyFill` succeeds whenever the whole deposit range is in bounds. -/
theorem valleyFill_total :
    ∀ (count : ℕ) (cols : List Column) (pos : ℕ) (nw w : ℚ),
      pos + count ≤ cols.length →
      ∃ out, valleyFill cols pos count nw w = some out := by
  intro count
  induction count with
  | zero => intro cols pos nw w _; exact ⟨_, rfl⟩
  | succ count ih =>
    intro cols pos nw w hle
    have hlt : pos < cols.length := by omega
    cases hg : cols.get? pos with
    | none =>
      rw [List.get?_eq_get hlt] at hg
      exact absurd hg (by simp)
    | some c =>
      unfold valleyFill
      rw [hg]
      exact ih _ _ _ _ (by simp only [List.length_set]; omega)

/-- Everything the plateau scan guarantees about a successful return:
`endPos` only moved right and stayed strictly inside the column list, the
final column's level differs from the start column's, every scanned column
matches the start level, the claims only zeroed bank entries, the freshly
claimed range is zero, and water is conserved between packet and bank. -/
theorem scanPlateau_ok :
    ∀ (count : ℕ) (cols : List Column) (pos endPos : ℕ) (w : ℚ) (bank : List ℚ)
      (endPos' : ℕ) (w' : ℚ) (bank' : List ℚ),
      scanPlateau cols pos count endPos w bank = some (endPos', w', bank') →
      ∃ cp ce, cols.get? pos = some cp ∧ cols.get? endPos' = some ce ∧
        cp.waterLevel ≠ ce.waterLevel ∧
        endPos ≤ endPos' ∧ endPos' < cols.length ∧
        (∀ j, endPos ≤ j → j < endPos' →
          ∃ cj, cols.get? j = some cj ∧ cj.waterLevel = cp.waterLevel) ∧
        bank'.length = bank.length ∧
        (∀ j, bank'.get? j = bank.get? j ∨ bank'.get? j = some 0) ∧
        (∀ j, endPos - 1 ≤ j → j + 1 < endPos' → bank'.get? j = some 0) ∧
        w' + bankSum bank' = w + bankSum bank ∧
        (bankNN bank → w ≤ w' ∧ bankNN bank') := by
  intro count
  induction count with
  | zero =>
    intro cols pos endPos w bank endPos' w' bank' h
    unfold scanPlateau at h
    split at h
    next cp ce hp he =>
      split at h
      · exact absurd h (by simp)
      next heq =>
        simp only [Option.some.injEq, Prod.mk.injEq] at h
        obtain ⟨rfl, rfl, rfl⟩ := h
        have hlt : endPos < cols.length := by
          by_contra hge
          rw [List.get?_len_le (by omega)] at he
          exact Option.noConfusion he
        exact ⟨cp, ce, hp, he, heq, le_refl _, hlt,
          fun j h1 h2 => absurd h2 (by omega), rfl, fun j => Or.inl rfl,
          fun j h1 h2 => absurd h2 (by omega), rfl,
          fun hnn => ⟨le_refl _, hnn⟩⟩
    next => exact absurd h (by simp)
  | succ count ih =>
    intro cols pos endPos w bank endPos' w' bank' h
    unfold scanPlateau at h
    split at h
    next cp ce hp he =>
      split at h
      next heq =>
        split at h
        · exact absurd h (by simp)
        next r bank1 hc =>
          obtain ⟨cp', ce', hp', he', hne', hle', hlt', heqr', hlen', horz',
            hdr', hsum', hnn'⟩ := ih _ _ _ _ _ _ _ _ h
          rw [hp] at hp'
          cases hp'
          obtain ⟨hcg, hclen, hc0, hcne, hcorz, hcsum⟩ := bankClaim_ok hc
          have h4 : endPos + 1 ≤ endPos' := hle'
          refine ⟨cp, ce', hp, he', hne', by omega, hlt', ?_, by omega, ?_, ?_, ?_, ?_⟩
          · intro j h1 h2
            by_cases hje : j = endPos
            · subst hje; exact ⟨ce, he, heq.symm⟩
            · exact heqr' j (by omega) h2
          · intro j
            rcases horz' j with h1 | h1
            · rcases hcorz j with h2 | h2
              · left; rw [h1, h2]
              · right; rw [h1, h2]
            · right; exact h1
          · intro j h1 h2
            by_cases hje : j + 1 ≤ endPos
            · have hj : j = endPos - 1 := by
                have h4 : endPos + 1 ≤ endPos' := hle'
                omega
              subst hj
              rcases horz' (endPos - 1) with h3 | h3
              · rw [h3, hc0]
              · exact h3
            · exact hdr' j (by omega) h2
          · have h5 : w' + bankSum bank' = w + r + bankSum bank1 := hsum'
            rw [h5, ← hcsum]
            ring
          · intro hnn
            obtain ⟨hr0, hnn1⟩ := bankNN_claim hnn hc
            obtain ⟨hw1, hnn2⟩ := hnn' hnn1
            exact ⟨by linarith, hnn2⟩
      next heq =>
        simp only [Option.some.injEq, Prod.mk.injEq] at h
        obtain ⟨rfl, rfl, rfl⟩ := h
        have hlt : endPos < cols.length := by
          by_contra hge
          rw [List.get?_len_le (by omega)] at he
          exact Option.noConfusion he
        exact ⟨cp, ce, hp, he, heq, le_refl _, hlt,
          fun j h1 h2 => absurd h2 (by omega), rfl, fun j => Or.inl rfl,
          fun j h1 h2 => absurd h2 (by omega), rfl,
          fun hnn => ⟨le_refl _, hnn⟩⟩
    next => exact absurd h (by simp)

end HelperLemmas

section ClassifyLemmas

/-- The dispatch chain always classifies: the nine `<`/`=`/`>` sign
combinations of the two comparisons are all covered by the seven
branches. -/
theorem classify_total (p c n : ℚ) : ∃ t, classify p c n = some t := by
  unfold classify
  split_ifs with h1 h2 h3 h4 h5 h6 h7
  · exact ⟨_, rfl⟩
  · exact ⟨_, rfl⟩
  · exact ⟨_, rfl⟩
  · exact ⟨_, rfl⟩
  · exact ⟨_, rfl⟩
  · exact ⟨_, rfl⟩
  · exact ⟨_, rfl⟩
  · exfalso
    rcases lt_trichotomy p c with hp | hp | hp
    · rcases lt_trichotomy n c with hn | hn | hn
      · exact h2 ⟨hp, hn⟩
      · exact h4 ⟨hp, hn⟩
      · exact h6 ⟨hp, hn⟩
    · rcases lt_trichotomy n c with hn | hn | hn
      · exact h3 ⟨ge_of_eq hp, hn⟩
      · exact h7 ⟨hp, ge_of_eq hn⟩
      · exact h7 ⟨hp, le_of_lt hn⟩
    · rcases lt_trichotomy n c with hn | hn | hn
      · exact h3 ⟨le_of_lt hp, hn⟩
      · exact h5 hp
      · exact h1 ⟨hp, hn⟩

theorem classify_valley {p c n : ℚ} (h : classify p c n = some .valley) :
    c < p ∧ c < n := by
  unfold classify at h
  split_ifs at h with h1 h2 h3 h4 h5 h6 h7 <;> simp_all

theorem classify_peak {p c n : ℚ} (h : classify p c n = some .peak) :
    p < c ∧ n < c := by
  unfold classify at h
  split_ifs at h with h1 h2 h3 h4 h5 h6 h7 <;> simp_all

theorem classify_downwards {p c n : ℚ} (h : classify p c n = some .downwards) :
    c ≤ p ∧ n < c := by
  unfold classify at h
  split_ifs at h with h1 h2 h3 h4 h5 h6 h7 <;> simp_all

theorem classify_sPlateau {p c n : ℚ} (h : classify p c n = some .sPlateau) :
    p < c ∧ n = c := by
  unfold classify at h
  split_ifs at h with h1 h2 h3 h4 h5 h6 h7 <;> simp_all

theorem classify_lPlateau {p c n : ℚ} (h : classify p c n = some .lPlateau) :
    c < p ∧ n = c := by
  unfold classify at h
  split_ifs at h with h1 h2 h3 h4 h5 h6 h7
  · exact absurd h (by simp)
  · exact absurd h (by simp)
  · exact absurd h (by simp)
  · exact absurd h (by simp)
  · refine ⟨h5, ?_⟩
    by_contra hne
    rcases lt_trichotomy n c with hn | hn | hn
    · exact h3 ⟨le_of_lt h5, hn⟩
    · exact hne hn
    · exact h1 ⟨h5, hn⟩
  · exact absurd h (by simp)
  · exact absurd h (by simp)

end ClassifyLemmas

section BasicMaster

theorem orZero_trans {a b c : Option ℚ} (h1 : a = b ∨ a = some 0)
    (h2 : b = c ∨ b = some 0) : a = c ∨ a = some 0 := by
  rcases h1 with h1 | h1
  · rcases h2 with h2 | h2
    · left; rw [h1, h2]
    · right; rw [h1, h2]
  · right; exact h1

/-- The remainder left by the valley deposit loop is never negative. -/
theorem valley_rem_nonneg (w m : ℚ) (count : ℕ) (hw : 0 ≤ w) :
    0 ≤ w - count * min (w / count) m := by
  cases count with
  | zero => simpa using hw
  | succ k =>
    have hq : (0 : ℚ) < ((k + 1 : ℕ) : ℚ) := by positivity
    have h1 : min (w / ((k + 1 : ℕ) : ℚ)) m ≤ w / ((k + 1 : ℕ) : ℚ) := min_le_left _ _
    have h2 : ((k + 1 : ℕ) : ℚ) * min (w / ((k + 1 : ℕ) : ℚ)) m ≤
        ((k + 1 : ℕ) : ℚ) * (w / ((k + 1 : ℕ) : ℚ)) :=
      mul_le_mul_of_nonneg_left h1 hq.le
    rw [mul_div_cancel₀ _ hq.ne'] at h2
    linarith

theorem new_rain_nn {e : Env} {pos : ℕ} {r : ℚ} {e1 : Env}
    (hnn : bankNN e.rain) (h : new_rain e pos = some (r, e1)) :
    0 ≤ r ∧ bankNN e1.rain := by
  unfold new_rain at h
  cases hc : bankClaim e.rain pos with
  | none => rw [hc] at h; exact absurd h (by simp)
  | some rb =>
    obtain ⟨r0, b0⟩ := rb
    rw [hc] at h
    simp only [Option.some.injEq, Prod.mk.injEq] at h
    obtain ⟨rfl, rfl⟩ := h
    exact bankNN_claim hnn hc

/-- Side conditions each handler call site establishes; they bound the
valley deposit range and orient the peak forward call. -/
def CallOk (e : Env) : Call → Prop
  | .valley pos _ _ _ endPos => pos < endPos ∧ endPos + 1 ≤ e.columns.length
  | .peak pos _ endPos => pos ≤ endPos
  | _ => True

/-- Master structural invariant of the engine: any successful call preserves
the number of columns and bank entries, never touches a column strictly left
of the call position nor the right wall, only ever zeroes bank entries,
never creates water (the sub-`EPSILON` branch of `flow` may destroy some),
and returns a non-negative backwater from a non-negative packet and bank. -/
theorem exec_basic (fuel : ℕ) :
    ∀ (e : Env) (c : Call) (b : ℚ) (e' : Env),
      CallOk e c → bankNN e.rain → 0 ≤ c.wOf →
      exec fuel e c = .ok b e' →
      e'.columns.length = e.columns.length ∧
      e'.rain.length = e.rain.length ∧
      (∀ j, j < c.posOf → e'.columns.get? j = e.columns.get? j) ∧
      e'.columns.get? (e.columns.length - 1) =
        e.columns.get? (e.columns.length - 1) ∧
      (∀ j, e'.rain.get? j = e.rain.get? j ∨ e'.rain.get? j = some 0) ∧
      colWaterSum e'.columns + bankSum e'.rain + b ≤
        colWaterSum e.columns + bankSum e.rain + c.wOf ∧
      0 ≤ b ∧ bankNN e'.rain := by
  induction fuel with
  | zero =>
    intro e c b e' _ _ _ h
    exact absurd h (by simp [exec])
  | succ fuel ih =>
    intro e c b e' hok hnn hw h
    cases c with
    | flow pos w =>
      simp only [Call.wOf] at hw
      simp only [Call.posOf, Call.wOf]
      rw [exec_succ] at h
      simp only [execBody] at h
      split at h
      next hguard =>
        simp only [RRes.ok.injEq] at h
        obtain ⟨rfl, rfl⟩ := h
        exact ⟨rfl, rfl, fun j _ => rfl, rfl, fun j => Or.inl rfl, le_refl _, hw, hnn⟩
      next hguard =>
        split at h
        next => exact absurd h (by simp)
        next r e1 hnr =>
          obtain ⟨hc1, hc2, hc3, hc4, hc5, hc6, hc7⟩ := new_rain_ok hnr
          obtain ⟨hr0, hnn1⟩ := new_rain_nn hnn hnr
          have hcomp : ∀ c2 : Call, pos ≤ c2.posOf → c2.wOf ≤ w + r →
              0 ≤ c2.wOf → CallOk e1 c2 → exec fuel e1 c2 = .ok b e' →
              e'.columns.length = e.columns.length ∧
              e'.rain.length = e.rain.length ∧
              (∀ j, j < pos → e'.columns.get? j = e.columns.get? j) ∧
              e'.columns.get? (e.columns.length - 1) =
                e.columns.get? (e.columns.length - 1) ∧
              (∀ j, e'.rain.get? j = e.rain.get? j ∨ e'.rain.get? j = some 0) ∧
              colWaterSum e'.columns + bankSum e'.rain + b ≤
                colWaterSum e.columns + bankSum e.rain + w ∧
              0 ≤ b ∧ bankNN e'.rain := by
            intro c2 hp2 hw2 hw2' hok2 h2
            obtain ⟨l1, l2, l3, l4, l5, l6, l7, l8⟩ := ih e1 c2 b e' hok2 hnn1 hw2' h2
            have hcw : colWaterSum e1.columns = colWaterSum e.columns := by rw [hc1]
            refine ⟨by rw [l1, hc1], by rw [l2, hc3], ?_, ?_, ?_, ?_, l7, l8⟩
            · intro j hj
              rw [l3 j (by omega), hc1]
            · rw [← hc1, l4, hc1]
            · intro j
              exact orZero_trans (l5 j) (hc6 j)
            · have : bankSum e1.rain = bankSum e.rain - r := by linarith [hc7]
              rw [hcw, this] at l6
              linarith
          split at h
          next hlt =>
            exact hcomp (.flow (pos + 1) 0)
              (show pos ≤ pos + 1 by omega)
              (show (0 : ℚ) ≤ w + r by linarith)
              (show (0 : ℚ) ≤ 0 from le_refl 0) trivial h
          next hge =>
            split at h
            next prevC currC nextC hgp hgc hgn =>
              have hlen2 : pos + 2 ≤ e1.columns.length := by
                rw [hc1]; omega
              split at h
              next hcls =>
                exact hcomp (.valley pos (w + r)
                    (prevC.waterLevel - currC.waterLevel)
                    (nextC.waterLevel - currC.waterLevel) (pos + 1))
                  (show pos ≤ pos from le_refl pos)
                  (show w + r ≤ w + r from le_refl _)
                  (show (0 : ℚ) ≤ w + r by linarith)
                  (show pos < pos + 1 ∧ pos + 1 + 1 ≤ e1.columns.length from
                    ⟨by omega, by omega⟩) h
              next hcls =>
                exact hcomp (.peak pos (w + r) (pos + 1))
                  (show pos ≤ pos from le_refl pos)
                  (show w + r ≤ w + r from le_refl _)
                  (show (0 : ℚ) ≤ w + r by linarith)
                  (show pos ≤ pos + 1 by omega) h
              next hcls =>
                exact hcomp (.downwards pos (w + r))
                  (show pos ≤ pos from le_refl pos)
                  (show w + r ≤ w + r from le_refl _)
                  (show (0 : ℚ) ≤ w + r by linarith) trivial h
              next hcls =>
                exact hcomp (.sPlateau pos (w + r))
                  (show pos ≤ pos from le_refl pos)
                  (show w + r ≤ w + r from le_refl _)
                  (show (0 : ℚ) ≤ w + r by linarith) trivial h
              next hcls =>
                exact hcomp (.lPlateau pos (w + r)
                    (prevC.waterLevel - currC.waterLevel))
                  (show pos ≤ pos from le_refl pos)
                  (show w + r ≤ w + r from le_refl _)
                  (show (0 : ℚ) ≤ w + r by linarith) trivial h
              next hcls =>
                simp only [RRes.ok.injEq] at h
                obtain ⟨rfl, rfl⟩ := h
                refine ⟨hc1 ▸ rfl, hc3 ▸ rfl, fun j _ => by rw [hc1], by rw [hc1],
                  hc6, ?_, by linarith, hnn1⟩
                have hcw : colWaterSum e1.columns = colWaterSum e.columns := by rw [hc1]
                have : bankSum e1.rain = bankSum e.rain - r := by linarith [hc7]
                rw [hcw, this]
                linarith
              next hcls =>
                simp only [RRes.ok.injEq] at h
                obtain ⟨rfl, rfl⟩ := h
                refine ⟨hc1 ▸ rfl, hc3 ▸ rfl, fun j _ => by rw [hc1], by rw [hc1],
                  hc6, ?_, by linarith, hnn1⟩
                have hcw : colWaterSum e1.columns = colWaterSum e.columns := by rw [hc1]
                have : bankSum e1.rain = bankSum e.rain - r := by linarith [hc7]
                rw [hcw, this]
                linarith
              next => exact absurd h (by simp)
            next => exact absurd h (by simp)
    | valley pos w leftDiff rightDiff endPos =>
      have hpe : pos < endPos := hok.1
      have hel : endPos + 1 ≤ e.columns.length := hok.2
      simp only [Call.wOf] at hw
      simp only [Call.posOf, Call.wOf]
      rw [exec_succ] at h
      simp only [execBody] at h
      split at h
      next => exact absurd h (by simp)
      next cols' w' heqf =>
        obtain ⟨hf1, hf2, hf3, hf4, hf5⟩ := valleyFill_ok _ _ _ _ _ _ _ heqf
        have hw' : 0 ≤ w' := by
          rw [hf1]; exact valley_rem_nonneg _ _ _ hw
        have hlast : cols'.get? (e.columns.length - 1) =
            e.columns.get? (e.columns.length - 1) := by
          apply hf3
          right; omega
        have hsum2 : colWaterSum cols' + w' = colWaterSum e.columns + w := by
          rw [hf5, hf1]; ring
        split at h
        next hpos =>
          split at h
          next hrl =>
            simp only [RRes.ok.injEq] at h
            obtain ⟨rfl, rfl⟩ := h
            refine ⟨?_, rfl, ?_, ?_, fun j => Or.inl rfl, ?_, hw', hnn⟩
            · exact hf2
            · intro j hj
              exact hf3 j (Or.inl hj)
            · exact hlast
            · show colWaterSum cols' + bankSum e.rain + w' ≤
                colWaterSum e.columns + bankSum e.rain + w
              linarith [hsum2]
          next hrl =>
            split at h
            next hlr =>
              obtain ⟨l1, l2, l3, l4, l5, l6, l7, l8⟩ :=
                ih ⟨cols', e.rain⟩ (.flow pos w') b e' trivial hnn hw' h
              have L1 : e'.columns.length = cols'.length := l1
              have L4 : e'.columns.get? (cols'.length - 1) =
                  cols'.get? (cols'.length - 1) := l4
              have L6 : colWaterSum e'.columns + bankSum e'.rain + b ≤
                  colWaterSum cols' + bankSum e.rain + w' := l6
              rw [hf2] at L4
              refine ⟨L1.trans hf2, l2, ?_, L4.trans hlast, l5, ?_, l7, l8⟩
              · intro j hj
                exact (l3 j hj).trans (hf3 j (Or.inl hj))
              · show colWaterSum e'.columns + bankSum e'.rain + b ≤
                  colWaterSum e.columns + bankSum e.rain + w
                linarith [hsum2, L6]
            next hlr =>
              split at h
              next fb e2 heq2 =>
                simp only [RRes.ok.injEq] at h
                obtain ⟨rfl, rfl⟩ := h
                obtain ⟨l1, l2, l3, l4, l5, l6, l7, l8⟩ :=
                  ih ⟨cols', e.rain⟩ (.flow endPos (w' * (1 / 2))) fb e2
                    trivial hnn
                    (show (0 : ℚ) ≤ w' * (1 / 2) from
                      mul_nonneg hw' (by norm_num)) heq2
                have L1 : e2.columns.length = cols'.length := l1
                have L3 : ∀ j, j < endPos → e2.columns.get? j = cols'.get? j := l3
                have L4 : e2.columns.get? (cols'.length - 1) =
                    cols'.get? (cols'.length - 1) := l4
                have L6 : colWaterSum e2.columns + bankSum e2.rain + fb ≤
                    colWaterSum cols' + bankSum e.rain + w' * (1 / 2) := l6
                have L7 : (0 : ℚ) ≤ fb := l7
                rw [hf2] at L4
                refine ⟨L1.trans hf2, l2, ?_, L4.trans hlast, l5, ?_, by linarith, l8⟩
                · intro j hj
                  exact (L3 j (by omega)).trans (hf3 j (Or.inl hj))
                · show colWaterSum e2.columns + bankSum e2.rain + (1 / 2 * w' + fb) ≤
                    colWaterSum e.columns + bankSum e.rain + w
                  linarith [hsum2, L6]
              next _ hne => exact (hne _ _ h).elim
        next hpos =>
          split at h
          next b2 e2 heq2 =>
            obtain ⟨l1, l2, l3, l4, l5, l6, l7, l8⟩ :=
              ih ⟨cols', e.rain⟩ (.flow endPos 0) b2 e2
                trivial hnn (le_refl 0) heq2
            have L1 : e2.columns.length = cols'.length := l1
            have L2 : e2.rain.length = e.rain.length := l2
            have L3 : ∀ j, j < endPos → e2.columns.get? j = cols'.get? j := l3
            have L4 : e2.columns.get? (cols'.length - 1) =
                cols'.get? (cols'.length - 1) := l4
            have L5 : ∀ j, e2.rain.get? j = e.rain.get? j ∨ e2.rain.get? j = some 0 := l5
            have L6 : colWaterSum e2.columns + bankSum e2.rain + b2 ≤
                colWaterSum cols' + bankSum e.rain + 0 := l6
            have L7 : (0 : ℚ) ≤ b2 := l7
            have L8 : bankNN e2.rain := l8
            rw [hf2] at L4
            split at h
            next hb2 =>
              obtain ⟨m1, m2, m3, m4, m5, m6, m7, m8⟩ :=
                ih e2 (.flow pos b2) b e' trivial L8 L7 h
              have M4 : e'.columns.get? (e2.columns.length - 1) =
                  e2.columns.get? (e2.columns.length - 1) := m4
              have M6 : colWaterSum e'.columns + bankSum e'.rain + b ≤
                  colWaterSum e2.columns + bankSum e2.rain + b2 := m6
              have he2len : e2.columns.length = e.columns.length := L1.trans hf2
              rw [he2len] at M4
              refine ⟨m1.trans he2len, m2.trans L2, ?_, M4.trans (L4.trans hlast),
                ?_, ?_, m7, m8⟩
              · intro j hj
                exact ((m3 j hj).trans (L3 j (by omega))).trans (hf3 j (Or.inl hj))
              · intro j
                exact orZero_trans (m5 j) (L5 j)
              · show colWaterSum e'.columns + bankSum e'.rain + b ≤
                  colWaterSum e.columns + bankSum e.rain + w
                linarith [hsum2, L6, M6, hw']
            next hb2 =>
              simp only [RRes.ok.injEq] at h
              obtain ⟨rfl, rfl⟩ := h
              refine ⟨L1.trans hf2, L2, ?_, L4.trans hlast, L5, ?_, le_refl _, L8⟩
              · intro j hj
                exact (L3 j (by omega)).trans (hf3 j (Or.inl hj))
              · show colWaterSum e2.columns + bankSum e2.rain + 0 ≤
                  colWaterSum e.columns + bankSum e.rain + w
                linarith [hsum2, L6, hw']
          next _ hne => exact (hne _ _ h).elim
    | peak pos w endPos =>
      have hok' : pos ≤ endPos := hok
      simp only [Call.wOf] at hw
      simp only [Call.posOf, Call.wOf]
      rw [exec_succ] at h
      simp only [execBody] at h
      split at h
      next fb e1 heq1 =>
        simp only [RRes.ok.injEq] at h
        obtain ⟨rfl, rfl⟩ := h
        obtain ⟨l1, l2, l3, l4, l5, l6, l7, l8⟩ :=
          ih e (.flow endPos ((1 / 2) * w)) fb e1 trivial hnn
            (show (0 : ℚ) ≤ (1 / 2) * w from mul_nonneg (by norm_num) hw) heq1
        have L3 : ∀ j, j < endPos → e1.columns.get? j = e.columns.get? j := l3
        have L6 : colWaterSum e1.columns + bankSum e1.rain + fb ≤
            colWaterSum e.columns + bankSum e.rain + (1 / 2) * w := l6
        have L7 : (0 : ℚ) ≤ fb := l7
        refine ⟨l1, l2, ?_, l4, l5, by linarith, by linarith, l8⟩
        intro j hj
        exact L3 j (by omega)
      next _ hne => exact (hne _ _ h).elim
    | lPlateau pos w leftDiff =>
      simp only [Call.wOf] at hw
      simp only [Call.posOf, Call.wOf]
      rw [exec_succ] at h
      simp only [execBody] at h
      split at h
      next => exact absurd h (by simp)
      next endPos w1 bank1 heqs =>
        obtain ⟨cp, ce, hsp, hse, hsne, hsle, hslt, hseq, hslen, hsorz, hsdr,
          hssum, hsnn⟩ := scanPlateau_ok _ _ _ _ _ _ _ _ _ heqs
        obtain ⟨hw1, hnn1⟩ := hsnn hnn
        split at h
        next ce' cp' hge' hgp' =>
          split at h
          next hrd =>
            obtain ⟨l1, l2, l3, l4, l5, l6, l7, l8⟩ :=
              ih ⟨e.columns, bank1⟩ (.valley pos w1 leftDiff
                  (ce'.waterLevel - cp'.waterLevel) endPos) b e'
                (show pos < endPos ∧ endPos + 1 ≤ e.columns.length from
                  ⟨by omega, by omega⟩)
                hnn1 (show (0 : ℚ) ≤ w1 by linarith) h
            have L2 : e'.rain.length = bank1.length := l2
            have L4 : e'.columns.get? (e.columns.length - 1) =
                e.columns.get? (e.columns.length - 1) := l4
            have L6 : colWaterSum e'.columns + bankSum e'.rain + b ≤
                colWaterSum e.columns + bankSum bank1 + w1 := l6
            refine ⟨l1, L2.trans hslen, l3, L4, ?_, ?_, l7, l8⟩
            · intro j
              exact orZero_trans (l5 j) (hsorz j)
            · show colWaterSum e'.columns + bankSum e'.rain + b ≤
                colWaterSum e.columns + bankSum e.rain + w
              linarith [hssum, L6]
          next hrd =>
            split at h
            next bw e2 heq2 =>
              obtain ⟨l1, l2, l3, l4, l5, l6, l7, l8⟩ :=
                ih ⟨e.columns, bank1⟩ (.flow endPos w1) bw e2
                  trivial hnn1 (show (0 : ℚ) ≤ w1 by linarith) heq2
              have L1 : e2.columns.length = e.columns.length := l1
              have L2 : e2.rain.length = bank1.length := l2
              have L3 : ∀ j, j < endPos → e2.columns.get? j = e.columns.get? j := l3
              have L4 : e2.columns.get? (e.columns.length - 1) =
                  e.columns.get? (e.columns.length - 1) := l4
              have L5 : ∀ j, e2.rain.get? j = bank1.get? j ∨ e2.rain.get? j = some 0 := l5
              have L6 : colWaterSum e2.columns + bankSum e2.rain + bw ≤
                  colWaterSum e.columns + bankSum bank1 + w1 := l6
              have L7 : (0 : ℚ) ≤ bw := l7
              have L8 : bankNN e2.rain := l8
              obtain ⟨m1, m2, m3, m4, m5, m6, m7, m8⟩ :=
                ih e2 (.flow pos bw) b e' trivial L8 L7 h
              have M4 : e'.columns.get? (e2.columns.length - 1) =
                  e2.columns.get? (e2.columns.length - 1) := m4
              have M6 : colWaterSum e'.columns + bankSum e'.rain + b ≤
                  colWaterSum e2.columns + bankSum e2.rain + bw := m6
              rw [L1] at M4
              refine ⟨m1.trans L1, m2.trans (L2.trans hslen), ?_, M4.trans L4,
                ?_, ?_, m7, m8⟩
              · intro j hj
                exact (m3 j hj).trans (L3 j (by omega))
              · intro j
                exact orZero_trans (m5 j) (orZero_trans (L5 j) (hsorz j))
              · show colWaterSum e'.columns + bankSum e'.rain + b ≤
                  colWaterSum e.columns + bankSum e.rain + w
                linarith [hssum, L6, M6]
            next _ hne => exact (hne _ _ h).elim
        next => exact absurd h (by simp)
    | sPlateau pos w =>
      simp only [Call.wOf] at hw
      simp only [Call.posOf, Call.wOf]
      rw [exec_succ] at h
      simp only [execBody] at h
      split at h
      next => exact absurd h (by simp)
      next endPos w1 bank1 heqs =>
        obtain ⟨cp, ce, hsp, hse, hsne, hsle, hslt, hseq, hslen, hsorz, hsdr,
          hssum, hsnn⟩ := scanPlateau_ok _ _ _ _ _ _ _ _ _ heqs
        obtain ⟨hw1, hnn1⟩ := hsnn hnn
        split at h
        next ce' cp' hge' hgp' =>
          split at h
          next hrd =>
            obtain ⟨l1, l2, l3, l4, l5, l6, l7, l8⟩ :=
              ih ⟨e.columns, bank1⟩ (.peak pos w1 endPos) b e'
                (show pos ≤ endPos by omega) hnn1
                (show (0 : ℚ) ≤ w1 by linarith) h
            have L2 : e'.rain.length = bank1.length := l2
            have L4 : e'.columns.get? (e.columns.length - 1) =
                e.columns.get? (e.columns.length - 1) := l4
            have L6 : colWaterSum e'.columns + bankSum e'.rain + b ≤
                colWaterSum e.columns + bankSum bank1 + w1 := l6
            refine ⟨l1, L2.trans hslen, l3, L4, ?_, ?_, l7, l8⟩
            · intro j
              exact orZero_trans (l5 j) (hsorz j)
            · show colWaterSum e'.columns + bankSum e'.rain + b ≤
                colWaterSum e.columns + bankSum e.rain + w
              linarith [hssum, L6]
          next hrd =>
            simp only [RRes.ok.injEq] at h
            obtain ⟨rfl, rfl⟩ := h
            refine ⟨rfl, hslen, fun j _ => rfl, rfl, hsorz, ?_, by linarith, hnn1⟩
            show colWaterSum e.columns + bankSum bank1 + w1 ≤
              colWaterSum e.columns + bankSum e.rain + w
            linarith [hssum]
        next => exact absurd h (by simp)
    | downwards pos w =>
      simp only [Call.wOf] at hw
      simp only [Call.posOf, Call.wOf]
      rw [exec_succ] at h
      simp only [execBody] at h
      split at h
      next bw e1 heq1 =>
        obtain ⟨l1, l2, l3, l4, l5, l6, l7, l8⟩ :=
          ih e (.flow (pos + 1) w) bw e1 trivial hnn hw heq1
        have L3 : ∀ j, j < pos + 1 → e1.columns.get? j = e.columns.get? j := l3
        have L6 : colWaterSum e1.columns + bankSum e1.rain + bw ≤
            colWaterSum e.columns + bankSum e.rain + w := l6
        have L7 : (0 : ℚ) ≤ bw := l7
        obtain ⟨m1, m2, m3, m4, m5, m6, m7, m8⟩ :=
          ih e1 (.flow pos bw) b e' trivial l8 L7 h
        have M4 : e'.columns.get? (e1.columns.length - 1) =
            e1.columns.get? (e1.columns.length - 1) := m4
        have M6 : colWaterSum e'.columns + bankSum e'.rain + b ≤
            colWaterSum e1.columns + bankSum e1.rain + bw := m6
        rw [l1] at M4
        refine ⟨m1.trans l1, m2.trans l2, ?_, M4.trans l4, ?_, by linarith, m7, m8⟩
        · intro j hj
          exact (m3 j hj).trans (L3 j (by omega))
        · intro j
          exact orZero_trans (m5 j) (l5 j)
      next _ hne => exact (hne _ _ h).elim

end BasicMaster

section UnclassifiedMaster

/-- The engine can never reach the `unimplemented!` abort of the dispatch
table: the seven branches cover all sign combinations, and every recursive
call preserves this. -/
theorem exec_no_unclassified (fuel : ℕ) :
    ∀ (e : Env) (c : Call), exec fuel e c ≠ .unclassified := by
  induction fuel with
  | zero =>
    intro e c hh
    simp only [exec] at hh
    exact RRes.noConfusion hh
  | succ fuel ih =>
    intro e c
    cases c with
    | flow pos w =>
      rw [exec_succ]
      simp only [execBody]
      split
      · exact fun hh => RRes.noConfusion hh
      · split
        · exact fun hh => RRes.noConfusion hh
        · split
          · exact ih _ _
          · split
            next prevC currC nextC hgp hgc hgn =>
              split
              · exact ih _ _
              · exact ih _ _
              · exact ih _ _
              · exact ih _ _
              · exact ih _ _
              · exact fun hh => RRes.noConfusion hh
              · exact fun hh => RRes.noConfusion hh
              next hcls =>
                obtain ⟨t, ht⟩ := classify_total prevC.waterLevel
                  currC.waterLevel nextC.waterLevel
                rw [hcls] at ht
                exact Option.noConfusion ht
            next => exact fun hh => RRes.noConfusion hh
    | valley pos w leftDiff rightDiff endPos =>
      rw [exec_succ]
      simp only [execBody]
      split
      · exact fun hh => RRes.noConfusion hh
      · split
        · split
          · exact fun hh => RRes.noConfusion hh
          · split
            · exact ih _ _
            · split
              · exact fun hh => RRes.noConfusion hh
              next => exact ih _ _
        · split
          · split
            · exact ih _ _
            · exact fun hh => RRes.noConfusion hh
          next => exact ih _ _
    | peak pos w endPos =>
      rw [exec_succ]
      simp only [execBody]
      split
      · exact fun hh => RRes.noConfusion hh
      next => exact ih _ _
    | lPlateau pos w leftDiff =>
      rw [exec_succ]
      simp only [execBody]
      split
      · exact fun hh => RRes.noConfusion hh
      · split
        · split
          · exact ih _ _
          · split
            · exact ih _ _
            next => exact ih _ _
        · exact fun hh => RRes.noConfusion hh
    | sPlateau pos w =>
      rw [exec_succ]
      simp only [execBody]
      split
      · exact fun hh => RRes.noConfusion hh
      · split
        · split
          · exact ih _ _
          · exact fun hh => RRes.noConfusion hh
        · exact fun hh => RRes.noConfusion hh
    | downwards pos w =>
      rw [exec_succ]
      simp only [execBody]
      split
      · exact ih _ _
      next => exact ih _ _

end UnclassifiedMaster

section FuelStability

/-- Results other than `outOfFuel` are stable under extra fuel: once the
engine completes (or fails) within some fuel budget, more fuel does not
change the outcome. -/
theorem exec_stable (fuel : ℕ) :
    ∀ (e : Env) (c : Call), exec fuel e c ≠ .outOfFuel →
      exec (fuel + 1) e c = exec fuel e c := by
  induction fuel with
  | zero =>
    intro e c h
    exact absurd (by simp [exec]) h
  | succ fuel ih =>
    intro e c h
    cases c with
    | flow pos w =>
      rw [exec_succ] at h
      rw [exec_succ, exec_succ]
      simp only [execBody] at h ⊢
      by_cases hg : pos ≥ e.columns.length - 1
      · simp only [if_pos hg]
      · simp only [if_neg hg] at h ⊢
        rcases hnr : new_rain e pos with _ | ⟨r, e1⟩
        · simp only [hnr]
        · simp only [hnr] at h ⊢
          by_cases heps : w + r < EPSILON
          · simp only [if_pos heps] at h ⊢
            exact ih _ _ h
          · simp only [if_neg heps] at h ⊢
            rcases h1 : e1.columns.get? (pos - 1) with _ | prevC <;>
              rcases h2 : e1.columns.get? pos with _ | currC <;>
              rcases h3 : e1.columns.get? (pos + 1) with _ | nextC <;>
              simp only [h1, h2, h3] at h ⊢
            rcases hc : classify prevC.waterLevel currC.waterLevel
                nextC.waterLevel with _ | t
            · simp only [hc]
            · cases t <;> simp only [hc] at h ⊢ <;>
                first | rfl | exact ih _ _ h
    | valley pos w leftDiff rightDiff endPos =>
      rw [exec_succ] at h
      rw [exec_succ, exec_succ]
      simp only [execBody] at h ⊢
      rcases hf : valleyFill e.columns pos (endPos - pos)
          (min (w / ((endPos - pos : ℕ) : ℚ)) (min leftDiff rightDiff)) w with
        _ | ⟨cols', w'⟩
      · simp only [hf]
      · simp only [hf] at h ⊢
        by_cases hw' : w' > 0
        · simp only [if_pos hw'] at h ⊢
          by_cases hrl : rightDiff > leftDiff
          · simp only [if_pos hrl]
          · simp only [if_neg hrl] at h ⊢
            by_cases hlr : rightDiff < leftDiff
            · simp only [if_pos hlr] at h ⊢
              exact ih _ _ h
            · simp only [if_neg hlr] at h ⊢
              rcases hx : exec fuel ⟨cols', e.rain⟩
                  (.flow endPos (w' * (1 / 2))) with ⟨fb, e2⟩ | _ | _ | _
              · have hst : exec (fuel + 1) ⟨cols', e.rain⟩
                    (.flow endPos (w' * (1 / 2))) = .ok fb e2 :=
                  (ih _ _ (by rw [hx]; exact fun hh => RRes.noConfusion hh)).trans hx
                simp only [hst, hx]
              · simp only [hx] at h
                exact absurd rfl h
              · have hst : exec (fuel + 1) ⟨cols', e.rain⟩
                    (.flow endPos (w' * (1 / 2))) = .idxErr :=
                  (ih _ _ (by rw [hx]; exact fun hh => RRes.noConfusion hh)).trans hx
                simp only [hst, hx]
              · have hst : exec (fuel + 1) ⟨cols', e.rain⟩
                    (.flow endPos (w' * (1 / 2))) = .unclassified :=
                  (ih _ _ (by rw [hx]; exact fun hh => RRes.noConfusion hh)).trans hx
                simp only [hst, hx]
        · simp only [if_neg hw'] at h ⊢
          rcases hx : exec fuel ⟨cols', e.rain⟩ (.flow endPos 0) with
            ⟨b2, e2⟩ | _ | _ | _
          · have hst : exec (fuel + 1) ⟨cols', e.rain⟩ (.flow endPos 0) =
                .ok b2 e2 :=
              (ih _ _ (by rw [hx]; exact fun hh => RRes.noConfusion hh)).trans hx
            simp only [hst, hx] at h ⊢
            by_cases hb2 : b2 > 0
            · simp only [if_pos hb2] at h ⊢
              exact ih _ _ h
            · simp only [if_neg hb2]
          · simp only [hx] at h
            exact absurd rfl h
          · have hst : exec (fuel + 1) ⟨cols', e.rain⟩ (.flow endPos 0) =
                .idxErr :=
              (ih _ _ (by rw [hx]; exact fun hh => RRes.noConfusion hh)).trans hx
            simp only [hst, hx]
          · have hst : exec (fuel + 1) ⟨cols', e.rain⟩ (.flow endPos 0) =
                .unclassified :=
              (ih _ _ (by rw [hx]; exact fun hh => RRes.noConfusion hh)).trans hx
            simp only [hst, hx]
    | peak pos w endPos =>
      rw [exec_succ] at h
      rw [exec_succ, exec_succ]
      simp only [execBody] at h ⊢
      rcases hx : exec fuel e (.flow endPos ((1 / 2) * w)) with ⟨fb, e1⟩ | _ | _ | _
      · have hst : exec (fuel + 1) e (.flow endPos ((1 / 2) * w)) = .ok fb e1 :=
          (ih _ _ (by rw [hx]; exact fun hh => RRes.noConfusion hh)).trans hx
        simp only [hst, hx]
      · simp only [hx] at h
        exact absurd rfl h
      · have hst : exec (fuel + 1) e (.flow endPos ((1 / 2) * w)) = .idxErr :=
          (ih _ _ (by rw [hx]; exact fun hh => RRes.noConfusion hh)).trans hx
        simp only [hst, hx]
      · have hst : exec (fuel + 1) e (.flow endPos ((1 / 2) * w)) = .unclassified :=
          (ih _ _ (by rw [hx]; exact fun hh => RRes.noConfusion hh)).trans hx
        simp only [hst, hx]
    | lPlateau pos w leftDiff =>
      rw [exec_succ] at h
      rw [exec_succ, exec_succ]
      simp only [execBody] at h ⊢
      rcases hs : scanPlateau e.columns pos e.columns.length (pos + 1) w e.rain
        with _ | ⟨endPos, w1, bank1⟩
      · simp only [hs]
      · simp only [hs] at h ⊢
        rcases h1 : e.columns.get? endPos with _ | ce <;>
          rcases h2 : e.columns.get? pos with _ | cp <;>
          simp only [h1, h2] at h ⊢
        by_cases hrd : ce.waterLevel - cp.waterLevel > 0
        · simp only [if_pos hrd] at h ⊢
          exact ih _ _ h
        · simp only [if_neg hrd] at h ⊢
          rcases hx : exec fuel ⟨e.columns, bank1⟩ (.flow endPos w1) with
            ⟨bw, e2⟩ | _ | _ | _
          · have hst : exec (fuel + 1) ⟨e.columns, bank1⟩ (.flow endPos w1) =
                .ok bw e2 :=
              (ih _ _ (by rw [hx]; exact fun hh => RRes.noConfusion hh)).trans hx
            simp only [hst, hx] at h ⊢
            exact ih _ _ h
          · simp only [hx] at h
            exact absurd rfl h
          · have hst : exec (fuel + 1) ⟨e.columns, bank1⟩ (.flow endPos w1) =
                .idxErr :=
              (ih _ _ (by rw [hx]; exact fun hh => RRes.noConfusion hh)).trans hx
            simp only [hst, hx]
          · have hst : exec (fuel + 1) ⟨e.columns, bank1⟩ (.flow endPos w1) =
                .unclassified :=
              (ih _ _ (by rw [hx]; exact fun hh => RRes.noConfusion hh)).trans hx
            simp only [hst, hx]
    | sPlateau pos w =>
      rw [exec_succ] at h
      rw [exec_succ, exec_succ]
      simp only [execBody] at h ⊢
      rcases hs : scanPlateau e.columns pos e.columns.length (pos + 1) w e.rain
        with _ | ⟨endPos, w1, bank1⟩
      · simp only [hs]
      · simp only [hs] at h ⊢
        rcases h1 : e.columns.get? endPos with _ | ce <;>
          rcases h2 : e.columns.get? pos with _ | cp <;>
          simp only [h1, h2] at h ⊢
        by_cases hrd : ce.waterLevel - cp.waterLevel < 0
        · simp only [if_pos hrd] at h ⊢
          exact ih _ _ h
        · simp only [if_neg hrd]
    | downwards pos w =>
      rw [exec_succ] at h
      rw [exec_succ, exec_succ]
      simp only [execBody] at h ⊢
      rcases hx : exec fuel e (.flow (pos + 1) w) with ⟨bw, e1⟩ | _ | _ | _
      · have hst : exec (fuel + 1) e (.flow (pos + 1) w) = .ok bw e1 :=
          (ih _ _ (by rw [hx]; exact fun hh => RRes.noConfusion hh)).trans hx
        simp only [hst, hx] at h ⊢
        exact ih _ _ h
      · simp only [hx] at h
        exact absurd rfl h
      · have hst : exec (fuel + 1) e (.flow (pos + 1) w) = .idxErr :=
          (ih _ _ (by rw [hx]; exact fun hh => RRes.noConfusion hh)).trans hx
        simp only [hst, hx]
      · have hst : exec (fuel + 1) e (.flow (pos + 1) w) = .unclassified :=
          (ih _ _ (by rw [hx]; exact fun hh => RRes.noConfusion hh)).trans hx
        simp only [hst, hx]

/-- Adding any amount of fuel preserves a non-`outOfFuel` result. -/
theorem exec_stable_le {f g : ℕ} (hfg : f ≤ g) (e : Env) (c : Call)
    (h : exec f e c ≠ .outOfFuel) : exec g e c = exec f e c := by
  induction g with
  | zero =>
    have : f = 0 := by omega
    subst this
    rfl
  | succ g ihg =>
    rcases Nat.lt_or_ge f (g + 1) with hlt | hge
    · have hfg' : f ≤ g := by omega
      have := ihg hfg'
      rw [← this] at h ⊢
      · exact exec_stable g e c (this ▸ h)
    · have : f = g + 1 := by omega
      subst this
      rfl

/-- Any two fuel budgets agree up to `outOfFuel`. -/
theorem exec_agree {f : ℕ} (g : ℕ) (e : Env) (c : Call)
    (h : exec f e c ≠ .outOfFuel) :
    exec g e c = .outOfFuel ∨ exec g e c = exec f e c := by
  rcases le_total f g with hle | hle
  · exact Or.inr (exec_stable_le hle e c h)
  · by_cases hg : exec g e c = .outOfFuel
    · exact Or.inl hg
    · exact Or.inr ((exec_stable_le hle e c hg).symm)

end FuelStability

section DrainMaster

theorem EPSILON_pos : (0 : ℚ) < EPSILON := by decide

theorem orz_some0 {a b : Option ℚ} (h : a = b ∨ a = some 0) (hb : b = some 0) :
    a = some 0 := by
  rcases h with h | h
  · rw [h, hb]
  · exact h

/-- Call-site context needed for the bank-drain property: the caller has
already drained the bank entries its handler is responsible for, and
packets entering a handler that can only echo them back are positive. -/
def preD (e : Env) : Call → Prop
  | .flow pos _ => 1 ≤ pos
  | .valley pos _ _ _ endPos => 1 ≤ pos ∧ pos < endPos ∧
      ∀ j, pos - 1 ≤ j → j + 1 < endPos → e.rain.get? j = some 0
  | .peak _ w _ => 0 < w
  | .lPlateau pos _ _ => 1 ≤ pos ∧ e.rain.get? (pos - 1) = some 0
  | .sPlateau _ w => 0 < w
  | .downwards pos _ => 1 ≤ pos

/-- Master drain property: whenever a call returns backwater `≤ 0`, every
bank entry from the caller's own claim onwards has been drained to zero. -/
theorem exec_drain (fuel : ℕ) :
    ∀ (e : Env) (c : Call) (b : ℚ) (e' : Env),
      preD e c → e.rain.length = e.columns.length - 2 →
      bankNN e.rain → 0 ≤ c.wOf →
      exec fuel e c = .ok b e' → b ≤ 0 →
      ∀ j, c.posOf - 1 ≤ j → j < e'.rain.length → e'.rain.get? j = some 0 := by
  induction fuel with
  | zero =>
    intro e c b e' _ _ _ _ h
    exact absurd h (by simp [exec])
  | succ fuel ih =>
    intro e c b e' hpre hlen hnn hw h hb
    cases c with
    | flow pos w =>
      have hp : 1 ≤ pos := hpre
      simp only [Call.wOf] at hw
      simp only [Call.posOf]
      rw [exec_succ] at h
      simp only [execBody] at h
      split at h
      next hguard =>
        simp only [RRes.ok.injEq] at h
        obtain ⟨rfl, rfl⟩ := h
        intro j hj1 hj2
        exfalso
        omega
      next hguard =>
        split at h
        next => exact absurd h (by simp)
        next r e1 hnr =>
          obtain ⟨hc1, hc2, hc3, hc4, hc5, hc6, hc7⟩ := new_rain_ok hnr
          obtain ⟨hr0, hnn1⟩ := new_rain_nn hnn hnr
          have hlen1 : e1.rain.length = e1.columns.length - 2 := by
            rw [hc3, hc1, hlen]
          split at h
          next hlt =>
            obtain ⟨_, _, _, _, l5, _, _, _⟩ :=
              exec_basic fuel e1 (.flow (pos + 1) 0) b e' trivial hnn1
                (le_refl 0) h
            have hdr : ∀ j, pos ≤ j → j < e'.rain.length →
                e'.rain.get? j = some 0 :=
              ih e1 (.flow (pos + 1) 0) b e'
                (show 1 ≤ pos + 1 by omega) hlen1 hnn1 (le_refl 0) h hb
            intro j hj1 hj2
            by_cases hjp : pos ≤ j
            · exact hdr j (by omega) hj2
            · have hj : j = pos - 1 := by omega
              subst hj
              exact orz_some0 (l5 (pos - 1)) hc4
          next hge =>
            have heps : (0 : ℚ) < w + r := lt_of_lt_of_le EPSILON_pos (not_lt.mp hge)
            split at h
            next prevC currC nextC hgp hgc hgn =>
              split at h
              next hcls =>
                exact ih e1 (.valley pos (w + r)
                    (prevC.waterLevel - currC.waterLevel)
                    (nextC.waterLevel - currC.waterLevel) (pos + 1)) b e'
                  (show 1 ≤ pos ∧ pos < pos + 1 ∧ _ from
                    ⟨hp, by omega, fun j hj1 hj2 => by
                      have hj : j = pos - 1 := by omega
                      subst hj
                      exact hc4⟩)
                  hlen1 hnn1 (le_of_lt heps) h hb
              next hcls =>
                exact ih e1 (.peak pos (w + r) (pos + 1)) b e' heps
                  hlen1 hnn1 (le_of_lt heps) h hb
              next hcls =>
                exact ih e1 (.downwards pos (w + r)) b e' hp
                  hlen1 hnn1 (le_of_lt heps) h hb
              next hcls =>
                exact ih e1 (.sPlateau pos (w + r)) b e' heps
                  hlen1 hnn1 (le_of_lt heps) h hb
              next hcls =>
                exact ih e1 (.lPlateau pos (w + r)
                    (prevC.waterLevel - currC.waterLevel)) b e'
                  (show 1 ≤ pos ∧ _ from ⟨hp, hc4⟩)
                  hlen1 hnn1 (le_of_lt heps) h hb
              next hcls =>
                simp only [RRes.ok.injEq] at h
                obtain ⟨rfl, rfl⟩ := h
                exact absurd hb (by linarith)
              next hcls =>
                simp only [RRes.ok.injEq] at h
                obtain ⟨rfl, rfl⟩ := h
                exact absurd hb (by linarith)
              next => exact absurd h (by simp)
            next => exact absurd h (by simp)
    | valley pos w leftDiff rightDiff endPos =>
      obtain ⟨hp, hpe, hclm⟩ := hpre
      simp only [Call.wOf] at hw
      simp only [Call.posOf]
      rw [exec_succ] at h
      simp only [execBody] at h
      split at h
      next => exact absurd h (by simp)
      next cols' w' heqf =>
        obtain ⟨hf1, hf2, hf3, hf4, hf5⟩ := valleyFill_ok _ _ _ _ _ _ _ heqf
        have hw' : 0 ≤ w' := by
          rw [hf1]; exact valley_rem_nonneg _ _ _ hw
        have hlen1 : (Env.mk cols' e.rain).rain.length =
            (Env.mk cols' e.rain).columns.length - 2 := by
          simp only
          rw [hf2, hlen]
        split at h
        next hpos =>
          split at h
          next hrl =>
            simp only [RRes.ok.injEq] at h
            obtain ⟨rfl, rfl⟩ := h
            exact absurd hb (by linarith)
          next hrl =>
            split at h
            next hlr =>
              exact ih ⟨cols', e.rain⟩ (.flow pos w') b e' hp hlen1 hnn hw' h hb
            next hlr =>
              split at h
              next fb e2 heq2 =>
                simp only [RRes.ok.injEq] at h
                obtain ⟨rfl, rfl⟩ := h
                obtain ⟨_, _, _, _, _, _, l7, _⟩ :=
                  exec_basic fuel ⟨cols', e.rain⟩ (.flow endPos (w' * (1 / 2)))
                    fb e2 trivial hnn
                    (show (0 : ℚ) ≤ w' * (1 / 2) from
                      mul_nonneg hw' (by norm_num)) heq2
                have L7 : (0 : ℚ) ≤ fb := l7
                exact absurd hb (by push_neg; linarith)
              next _ hne => exact (hne _ _ h).elim
        next hpos =>
          split at h
          next b2 e2 heq2 =>
            obtain ⟨_, l2, _, _, l5, _, l7, l8⟩ :=
              exec_basic fuel ⟨cols', e.rain⟩ (.flow endPos 0) b2 e2
                trivial hnn (le_refl 0) heq2
            have L2 : e2.rain.length = e.rain.length := l2
            have L5 : ∀ j, e2.rain.get? j = e.rain.get? j ∨
                e2.rain.get? j = some 0 := l5
            have L7 : (0 : ℚ) ≤ b2 := l7
            have L8 : bankNN e2.rain := l8
            have hdr2 : b2 ≤ 0 → ∀ j, endPos - 1 ≤ j → j < e2.rain.length →
                e2.rain.get? j = some 0 :=
              ih ⟨cols', e.rain⟩ (.flow endPos 0) b2 e2
                (show 1 ≤ endPos by omega) hlen1 hnn (le_refl 0) heq2
            split at h
            next hb2 =>
              obtain ⟨m1, _, _, _, _, _, _, _⟩ :=
                exec_basic fuel e2 (.flow pos b2) b e' trivial L8 L7 h
              have hlen2 : e2.rain.length = e2.columns.length - 2 := by
                have M1 : e2.columns.length = cols'.length :=
                  (exec_basic fuel ⟨cols', e.rain⟩ (.flow endPos 0) b2 e2
                    trivial hnn (le_refl 0) heq2).1
                rw [L2, M1, hf2, hlen]
              exact ih e2 (.flow pos b2) b e' hp hlen2 L8 L7 h hb
            next hb2 =>
              simp only [RRes.ok.injEq] at h
              obtain ⟨rfl, rfl⟩ := h
              have hb2' : b2 = 0 := le_antisymm (not_lt.mp hb2) L7
              have hdr := hdr2 (le_of_eq hb2')
              intro j hj1 hj2
              by_cases hje : endPos - 1 ≤ j
              · exact hdr j (by omega) hj2
              · refine orz_some0 (L5 j) (hclm j (by omega) (by omega))
          next _ hne => exact (hne _ _ h).elim
    | peak pos w endPos =>
      have hwp : 0 < w := hpre
      simp only [Call.wOf] at hw
      simp only [Call.posOf]
      rw [exec_succ] at h
      simp only [execBody] at h
      split at h
      next fb e1 heq1 =>
        simp only [RRes.ok.injEq] at h
        obtain ⟨rfl, rfl⟩ := h
        obtain ⟨_, _, _, _, _, _, l7, _⟩ :=
          exec_basic fuel e (.flow endPos ((1 / 2) * w)) fb e1 trivial hnn
            (show (0 : ℚ) ≤ (1 / 2) * w from mul_nonneg (by norm_num) hw) heq1
        have L7 : (0 : ℚ) ≤ fb := l7
        exact absurd hb (by push_neg; linarith)
      next _ hne => exact (hne _ _ h).elim
    | lPlateau pos w leftDiff =>
      obtain ⟨hp, hcl⟩ := hpre
      simp only [Call.wOf] at hw
      simp only [Call.posOf]
      rw [exec_succ] at h
      simp only [execBody] at h
      split at h
      next => exact absurd h (by simp)
      next endPos w1 bank1 heqs =>
        obtain ⟨cp, ce, hsp, hse, hsne, hsle, hslt, hseq, hslen, hsorz, hsdr,
          hssum, hsnn⟩ := scanPlateau_ok _ _ _ _ _ _ _ _ _ heqs
        obtain ⟨hw1, hnn1⟩ := hsnn hnn
        have hlen1 : (Env.mk e.columns bank1).rain.length =
            (Env.mk e.columns bank1).columns.length - 2 := by
          simp only
          rw [hslen, hlen]
        split at h
        next ce' cp' hge' hgp' =>
          split at h
          next hrd =>
            exact ih ⟨e.columns, bank1⟩ (.valley pos w1 leftDiff
                (ce'.waterLevel - cp'.waterLevel) endPos) b e'
              (show 1 ≤ pos ∧ pos < endPos ∧ _ from
                ⟨hp, by omega, fun j hj1 hj2 => by
                  by_cases hje : pos ≤ j
                  · exact hsdr j (by omega) (by omega)
                  · have hj : j = pos - 1 := by omega
                    subst hj
                    exact orz_some0 (hsorz (pos - 1)) hcl⟩)
              hlen1 hnn1 (show (0 : ℚ) ≤ w1 by linarith) h hb
          next hrd =>
            split at h
            next bw e2 heq2 =>
              obtain ⟨m1, l2, _, _, _, _, l7, l8⟩ :=
                exec_basic fuel ⟨e.columns, bank1⟩ (.flow endPos w1) bw e2
                  trivial hnn1 (show (0 : ℚ) ≤ w1 by linarith) heq2
              have M1 : e2.columns.length = e.columns.length := m1
              have L2 : e2.rain.length = bank1.length := l2
              have L7 : (0 : ℚ) ≤ bw := l7
              have L8 : bankNN e2.rain := l8
              have hlen2 : e2.rain.length = e2.columns.length - 2 := by
                rw [L2, M1, hslen, hlen]
              exact ih e2 (.flow pos bw) b e' hp hlen2 L8 L7 h hb
            next _ hne => exact (hne _ _ h).elim
        next => exact absurd h (by simp)
    | sPlateau pos w =>
      have hwp : 0 < w := hpre
      simp only [Call.wOf] at hw
      simp only [Call.posOf]
      rw [exec_succ] at h
      simp only [execBody] at h
      split at h
      next => exact absurd h (by simp)
      next endPos w1 bank1 heqs =>
        obtain ⟨cp, ce, hsp, hse, hsne, hsle, hslt, hseq, hslen, hsorz, hsdr,
          hssum, hsnn⟩ := scanPlateau_ok _ _ _ _ _ _ _ _ _ heqs
        obtain ⟨hw1, hnn1⟩ := hsnn hnn
        have hlen1 : (Env.mk e.columns bank1).rain.length =
            (Env.mk e.columns bank1).columns.length - 2 := by
          simp only
          rw [hslen, hlen]
        split at h
        next ce' cp' hge' hgp' =>
          split at h
          next hrd =>
            exact ih ⟨e.columns, bank1⟩ (.peak pos w1 endPos) b e'
              (show (0 : ℚ) < w1 by linarith) hlen1 hnn1
              (show (0 : ℚ) ≤ w1 by linarith) h hb
          next hrd =>
            simp only [RRes.ok.injEq] at h
            obtain ⟨rfl, rfl⟩ := h
            exact absurd hb (by push_neg; linarith)
        next => exact absurd h (by simp)
    | downwards pos w =>
      have hp : 1 ≤ pos := hpre
      simp only [Call.wOf] at hw
      simp only [Call.posOf]
      rw [exec_succ] at h
      simp only [execBody] at h
      split at h
      next bw e1 heq1 =>
        obtain ⟨l1, l2, _, _, _, _, l7, l8⟩ :=
          exec_basic fuel e (.flow (pos + 1) w) bw e1 trivial hnn hw heq1
        have hlen2 : e1.rain.length = e1.columns.length - 2 := by
          rw [l2, l1, hlen]
        exact ih e1 (.flow pos bw) b e' hp hlen2 l8 l7 h hb
      next _ hne => exact (hne _ _ h).elim

end DrainMaster

section SafetyMaster

/-- Water level of the column at index `i`, or `0` out of range. -/
def levelAt (e : Env) (i : ℕ) : ℚ :=
  match e.columns.get? i with
  | some c => c.waterLevel
  | none => 0

theorem levelAt_eq {e : Env} {i : ℕ} {c : Column}
    (h : e.columns.get? i = some c) : levelAt e i = c.waterLevel := by
  unfold levelAt
  rw [h]

theorem columns_get_total {e : Env} {i : ℕ} (h : i < e.columns.length) :
    ∃ c, e.columns.get? i = some c :=
  ⟨_, List.get?_eq_get h⟩

theorem waterLevel_addWater (c : Column) (nw : ℚ) :
    (c.addWater nw).waterLevel = c.waterLevel + nw := by
  simp [Column.waterLevel, Column.addWater]
  ring

/-- The safety invariant: the terrain has its two walls, the bank matches
the interior, the right wall sits at `fMAX`, no level exceeds `fMAX`, and
any interior column at wall level has its left neighbour at wall level too
(wall-level columns form a chain growing from the left wall). -/
def Inv (e : Env) : Prop :=
  2 ≤ e.columns.length ∧
  e.rain.length = e.columns.length - 2 ∧
  levelAt e (e.columns.length - 1) = fMAX ∧
  (∀ i, i < e.columns.length → levelAt e i ≤ fMAX) ∧
  (∀ i, 1 ≤ i → i + 1 < e.columns.length → levelAt e i = fMAX →
    levelAt e (i - 1) = fMAX)

/-- Call-site context for the no-out-of-bounds property. -/
def CallFOk (e : Env) : Call → Prop
  | .flow pos _ => 1 ≤ pos
  | .valley pos _ ld rd endPos => 1 ≤ pos ∧ pos < endPos ∧
      endPos < e.columns.length ∧
      ld = levelAt e (pos - 1) - levelAt e pos ∧
      rd = levelAt e endPos - levelAt e pos ∧ 0 < rd ∧
      (∀ j, pos ≤ j → j < endPos → levelAt e j = levelAt e pos)
  | .peak _ _ endPos => 1 ≤ endPos
  | .lPlateau pos _ ld => 1 ≤ pos ∧ pos + 1 < e.columns.length ∧
      levelAt e pos < levelAt e (pos - 1) ∧
      ld = levelAt e (pos - 1) - levelAt e pos
  | .sPlateau pos _ => 1 ≤ pos ∧ pos + 1 < e.columns.length ∧
      levelAt e (pos - 1) < levelAt e pos
  | .downwards pos _ => 1 ≤ pos

/-- The result contract of the no-out-of-bounds master: the call does not
panic on an index, and a successful call preserves the invariant and the
number of columns. -/
def FOut (e : Env) (r : RRes) : Prop :=
  r ≠ .idxErr ∧ ∀ b e', r = .ok b e' → Inv e' ∧
    e'.columns.length = e.columns.length

theorem FOut_ok {e e' : Env} {b : ℚ} (h1 : Inv e')
    (h2 : e'.columns.length = e.columns.length) : FOut e (.ok b e') := by
  refine ⟨fun hh => RRes.noConfusion hh, fun b2 e2 hh => ?_⟩
  simp only [RRes.ok.injEq] at hh
  obtain ⟨rfl, rfl⟩ := hh
  exact ⟨h1, h2⟩

theorem FOut_outOfFuel (e : Env) : FOut e .outOfFuel :=
  ⟨fun hh => RRes.noConfusion hh, fun b2 e2 hh => absurd hh (by simp)⟩

theorem FOut_unclassified (e : Env) : FOut e .unclassified :=
  ⟨fun hh => RRes.noConfusion hh, fun b2 e2 hh => absurd hh (by simp)⟩

theorem FOut_mono {e1 e : Env} {r : RRes}
    (hlen : e1.columns.length = e.columns.length) (h : FOut e1 r) :
    FOut e r := by
  obtain ⟨h1, h2⟩ := h
  refine ⟨h1, fun b e' hh => ?_⟩
  obtain ⟨hi, hl⟩ := h2 b e' hh
  exact ⟨hi, hl.trans hlen⟩

/-- An `Inv` state stays invariant when only the bank changes, length
preserved. -/
theorem Inv_bank {e : Env} (bank : List ℚ) (h : Inv e)
    (hlen : bank.length = e.rain.length) : Inv ⟨e.columns, bank⟩ := by
  obtain ⟨h1, h2, h3, h4, h5⟩ := h
  exact ⟨h1, by simpa [hlen] using h2, h3, h4, h5⟩

/-- `new_rain` succeeds when the claimed index is in range. -/
theorem new_rain_total (e : Env) (pos : ℕ) (h : pos - 1 < e.rain.length) :
    ∃ r e1, new_rain e pos = some (r, e1) := by
  unfold new_rain bankClaim
  rw [List.get?_eq_get h]
  exact ⟨_, _, rfl⟩

/-- The valley deposit preserves the invariant, provided the deposit stays
below both rims. -/
theorem inv_valley_fill (e : Env) (pos endPos : ℕ) (nw : ℚ)
    (cols' : List Column) (hInv : Inv e)
    (hp : 1 ≤ pos) (hpe : pos < endPos) (hel : endPos < e.columns.length)
    (hlen : cols'.length = e.columns.length)
    (hout : ∀ j, j < pos ∨ pos + (endPos - pos) ≤ j →
      cols'.get? j = e.columns.get? j)
    (hin : ∀ j, pos ≤ j → j < pos + (endPos - pos) →
      cols'.get? j = (e.columns.get? j).map (fun c => c.addWater nw))
    (heqr : ∀ j, pos ≤ j → j < endPos → levelAt e j = levelAt e pos)
    (hnwld : nw ≤ levelAt e (pos - 1) - levelAt e pos)
    (hnwrd : nw ≤ levelAt e endPos - levelAt e pos)
    (hrdpos : levelAt e pos < levelAt e endPos) :
    Inv ⟨cols', e.rain⟩ := by
  obtain ⟨h1, h2, h3, h4, h5⟩ := hInv
  have hlevel : ∀ j, levelAt ⟨cols', e.rain⟩ j =
      if pos ≤ j ∧ j < endPos then levelAt e j + nw else levelAt e j := by
    intro j
    by_cases hj : pos ≤ j ∧ j < endPos
    · rw [if_pos hj]
      obtain ⟨cj, hcj⟩ := columns_get_total (show j < e.columns.length by omega)
      have := hin j hj.1 (by omega)
      rw [hcj] at this
      simp only [Option.map_some'] at this
      rw [show levelAt ⟨cols', e.rain⟩ j = (cj.addWater nw).waterLevel from
        levelAt_eq this, waterLevel_addWater, levelAt_eq hcj]
    · rw [if_neg hj]
      have hj' : j < pos ∨ pos + (endPos - pos) ≤ j := by omega
      show levelAt ⟨cols', e.rain⟩ j = levelAt e j
      unfold levelAt
      rw [hout j hj']
  have hpm1 : pos - 1 < e.columns.length := by omega
  have hbnd : levelAt e pos + nw ≤ fMAX := by
    have := h4 (pos - 1) hpm1
    linarith
  show 2 ≤ cols'.length ∧
      e.rain.length = cols'.length - 2 ∧
      levelAt ⟨cols', e.rain⟩ (cols'.length - 1) = fMAX ∧
      (∀ i, i < cols'.length → levelAt ⟨cols', e.rain⟩ i ≤ fMAX) ∧
      (∀ i, 1 ≤ i → i + 1 < cols'.length →
        levelAt ⟨cols', e.rain⟩ i = fMAX → levelAt ⟨cols', e.rain⟩ (i - 1) = fMAX)
  rw [hlen]
  refine ⟨by omega, h2, ?_, ?_, ?_⟩
  · rw [hlevel]
    rw [if_neg (by omega)]
    exact h3
  · intro i hi
    rw [hlevel]
    by_cases hj : pos ≤ i ∧ i < endPos
    · rw [if_pos hj, heqr i hj.1 hj.2]
      exact hbnd
    · rw [if_neg hj]
      exact h4 i (by omega)
  · intro i hi1 hi2 hifmax
    rw [hlevel] at hifmax
    rw [hlevel]
    by_cases hj : pos ≤ i ∧ i < endPos
    · rw [if_pos hj, heqr i hj.1 hj.2] at hifmax
      have hldmax : levelAt e (pos - 1) = fMAX := by
        have := h4 (pos - 1) hpm1
        linarith
      by_cases hip : i = pos
      · subst hip
        rw [if_neg (by omega)]
        exact hldmax
      · rw [if_pos (by omega), heqr (i - 1) (by omega) (by omega)]
        rw [← hifmax]
    · rw [if_neg hj] at hifmax
      have hold := h5 i hi1 (by omega) hifmax
      by_cases hj1 : pos ≤ i - 1 ∧ i - 1 < endPos
      · exfalso
        have hie : i = endPos := by omega
        have hc1 : levelAt e (i - 1) = levelAt e pos :=
          heqr (i - 1) (by omega) (by omega)
        have hc2 : levelAt e pos < fMAX := by
          rw [← hifmax, hie]
          exact hrdpos
        rw [hc1] at hold
        exact absurd hold (ne_of_lt hc2)
      · rw [if_neg hj1]
        exact hold

/-- `Inv` transfers along equal columns and equal bank length. -/
theorem Inv_same {e e1 : Env} (hc : e1.columns = e.columns)
    (hr : e1.rain.length = e.rain.length) (h : Inv e) : Inv e1 := by
  obtain ⟨h1, h2, h3, h4, h5⟩ := h
  have hl : ∀ i, levelAt e1 i = levelAt e i := by
    intro i
    unfold levelAt
    rw [hc]
  refine ⟨by rw [hc]; exact h1, by rw [hr, hc]; exact h2,
    by rw [hl, hc]; exact h3,
    fun i hi => by rw [hl]; exact h4 i (by rwa [hc] at hi),
    fun i hi1 hi2 hif => by
      rw [hl] at hif ⊢
      exact h5 i hi1 (by rwa [hc] at hi2) hif⟩

/-- The plateau scan terminates inside the walls: it cannot run past the
right wall because the wall's level is `fMAX` while the scanned level is
strictly below `fMAX`, and every bank claim it makes is in range. -/
theorem scanPlateau_total :
    ∀ (count : ℕ) (cols : List Column) (pos endPos : ℕ) (w : ℚ)
      (bank : List ℚ) (cp : Column),
      cols.get? pos = some cp →
      cp.waterLevel < fMAX →
      (∀ cl, cols.get? (cols.length - 1) = some cl → cl.waterLevel = fMAX) →
      1 ≤ endPos →
      endPos ≤ cols.length - 1 →
      cols.length - endPos ≤ count →
      bank.length = cols.length - 2 →
      ∃ out, scanPlateau cols pos count endPos w bank = some out := by
  intro count
  induction count with
  | zero =>
    intro cols pos endPos w bank cp hp hclt hlast h1e hle hcnt hblen
    exfalso
    have hpl : pos < cols.length := by
      by_contra hge
      rw [List.get?_len_le (by omega)] at hp
      exact Option.noConfusion hp
    omega
  | succ count ih =>
    intro cols pos endPos w bank cp hp hclt hlast h1e hle hcnt hblen
    have hpl : pos < cols.length := by
      by_contra hge
      rw [List.get?_len_le (by omega)] at hp
      exact Option.noConfusion hp
    have hel : endPos < cols.length := by omega
    obtain ⟨ce, hce⟩ : ∃ c, cols.get? endPos = some c :=
      ⟨_, List.get?_eq_get hel⟩
    unfold scanPlateau
    simp only [hp, hce]
    by_cases heq : cp.waterLevel = ce.waterLevel
    · simp only [if_pos heq]
      have hene : endPos ≠ cols.length - 1 := by
        intro hE
        rw [hE] at hce
        have := hlast ce hce
        rw [heq, this] at hclt
        exact absurd hclt (lt_irrefl _)
      have hle2 : endPos ≤ cols.length - 2 := by omega
      have hbi : endPos - 1 < bank.length := by omega
      obtain ⟨rb, hrb⟩ : ∃ x, bank.get? (endPos - 1) = some x :=
        ⟨_, List.get?_eq_get hbi⟩
      have hbc : ∃ r bank1, bankClaim bank endPos = some (r, bank1) := by
        unfold bankClaim
        rw [hrb]
        exact ⟨_, _, rfl⟩
      obtain ⟨r, bank1, hbc⟩ := hbc
      simp only [hbc]
      obtain ⟨_, hb1len, _, _, _, _⟩ := bankClaim_ok hbc
      exact ih cols pos (endPos + 1) (w + r) bank1 cp hp hclt hlast
        (by omega) (by omega) (by omega) (by rw [hb1len, hblen])
    · simp only [if_neg heq]
      exact ⟨_, rfl⟩

/-- Master safety theorem: under the invariant, the engine never panics on
an out-of-bounds index, and successful calls preserve the invariant. -/
theorem exec_no_oob (fuel : ℕ) :
    ∀ (e : Env) (c : Call), Inv e → CallFOk e c →
      FOut e (exec fuel e c) := by
  induction fuel with
  | zero =>
    intro e c _ _
    exact FOut_outOfFuel e
  | succ fuel ih =>
    intro e c hInv hok
    cases c with
    | flow pos w =>
      have hp : 1 ≤ pos := hok
      rw [exec_succ]
      simp only [execBody]
      by_cases hg : pos ≥ e.columns.length - 1
      · simp only [if_pos hg]
        exact FOut_ok hInv rfl
      · simp only [if_neg hg]
        have hg' : pos < e.columns.length - 1 := not_le.mp hg
        obtain ⟨r, e1, hnr⟩ := new_rain_total e pos
          (by rw [hInv.2.1]; omega)
        simp only [hnr]
        obtain ⟨hc1, hc2, hc3, hc4, hc5, hc6, hc7⟩ := new_rain_ok hnr
        have hInv1 : Inv e1 := Inv_same hc1 hc3 hInv
        have hlen1 : e1.columns.length = e.columns.length := by rw [hc1]
        have hlvl1 : ∀ i, levelAt e1 i = levelAt e i := by
          intro i
          unfold levelAt
          rw [hc1]
        by_cases heps : w + r < EPSILON
        · simp only [if_pos heps]
          exact FOut_mono hlen1 (ih e1 (.flow (pos + 1) 0) hInv1
            (show 1 ≤ pos + 1 by omega))
        · simp only [if_neg heps]
          obtain ⟨prevC, hgp⟩ := columns_get_total
            (show pos - 1 < e1.columns.length by omega)
          obtain ⟨currC, hgc⟩ := columns_get_total
            (show pos < e1.columns.length by omega)
          obtain ⟨nextC, hgn⟩ := columns_get_total
            (show pos + 1 < e1.columns.length by omega)
          simp only [hgp, hgc, hgn]
          rcases hcls : classify prevC.waterLevel currC.waterLevel
              nextC.waterLevel with _ | t
          · simp only [hcls]
            exact FOut_unclassified e
          · cases t <;> simp only [hcls]
            · obtain ⟨hd1, hd2⟩ := classify_valley hcls
              refine FOut_mono hlen1 (ih e1 (.valley pos (w + r)
                  (prevC.waterLevel - currC.waterLevel)
                  (nextC.waterLevel - currC.waterLevel) (pos + 1)) hInv1 ?_)
              refine ⟨hp, by omega, by omega, ?_, ?_, ?_, ?_⟩
              · rw [levelAt_eq hgp, levelAt_eq hgc]
              · rw [levelAt_eq hgn, levelAt_eq hgc]
              · linarith
              · intro j hj1 hj2
                have : j = pos := by omega
                rw [this]
            · exact FOut_mono hlen1 (ih e1 (.peak pos (w + r) (pos + 1))
                hInv1 (show 1 ≤ pos + 1 by omega))
            · exact FOut_mono hlen1 (ih e1 (.downwards pos (w + r)) hInv1 hp)
            · obtain ⟨hd1, hd2⟩ := classify_sPlateau hcls
              refine FOut_mono hlen1 (ih e1 (.sPlateau pos (w + r)) hInv1 ?_)
              refine ⟨hp, by omega, ?_⟩
              rw [levelAt_eq hgp, levelAt_eq hgc]
              exact hd1
            · obtain ⟨hd1, hd2⟩ := classify_lPlateau hcls
              refine FOut_mono hlen1 (ih e1 (.lPlateau pos (w + r)
                  (prevC.waterLevel - currC.waterLevel)) hInv1 ?_)
              refine ⟨hp, by omega, ?_, ?_⟩
              · rw [levelAt_eq hgp, levelAt_eq hgc]
                exact hd1
              · rw [levelAt_eq hgp, levelAt_eq hgc]
            · exact FOut_ok hInv1 hlen1
            · exact FOut_ok hInv1 hlen1
    | valley pos w leftDiff rightDiff endPos =>
      obtain ⟨hp, hpe, hel, hld, hrd, hrdp, heqr⟩ := hok
      rw [exec_succ]
      simp only [execBody]
      obtain ⟨out, heqf⟩ := valleyFill_total (endPos - pos) e.columns pos
        (min (w / ((endPos - pos : ℕ) : ℚ)) (min leftDiff rightDiff)) w
        (by omega)
      obtain ⟨cols', w'⟩ := out
      simp only [heqf]
      obtain ⟨hf1, hf2, hf3, hf4, hf5⟩ := valleyFill_ok _ _ _ _ _ _ _ heqf
      have hnwm : min (w / ((endPos - pos : ℕ) : ℚ)) (min leftDiff rightDiff) ≤
          min leftDiff rightDiff := min_le_right _ _
      have hInvE1 : Inv ⟨cols', e.rain⟩ := by
        refine inv_valley_fill e pos endPos _ cols' hInv hp hpe hel hf2 hf3 hf4
          heqr ?_ ?_ ?_
        · rw [← hld]
          exact le_trans hnwm (min_le_left _ _)
        · rw [← hrd]
          exact le_trans hnwm (min_le_right _ _)
        · linarith
      have hlenE1 : (Env.mk cols' e.rain).columns.length = e.columns.length := hf2
      by_cases hw' : w' > 0
      · simp only [if_pos hw']
        by_cases hrl : rightDiff > leftDiff
        · simp only [if_pos hrl]
          exact FOut_ok hInvE1 hf2
        · simp only [if_neg hrl]
          by_cases hlr : rightDiff < leftDiff
          · simp only [if_pos hlr]
            exact FOut_mono hlenE1 (ih ⟨cols', e.rain⟩ (.flow pos w') hInvE1 hp)
          · simp only [if_neg hlr]
            have hsub := ih ⟨cols', e.rain⟩ (.flow endPos (w' * (1 / 2)))
              hInvE1 (show 1 ≤ endPos by omega)
            rcases hx : exec fuel ⟨cols', e.rain⟩
                (.flow endPos (w' * (1 / 2))) with ⟨fb, e2⟩ | _ | _ | _ <;>
              simp only [hx]
            · obtain ⟨hInv2, hlen2⟩ := hsub.2 fb e2 hx
              exact FOut_ok hInv2 (hlen2.trans hf2)
            · exact FOut_outOfFuel e
            · exact absurd hx hsub.1
            · exact FOut_unclassified e
      · simp only [if_neg hw']
        have hsub := ih ⟨cols', e.rain⟩ (.flow endPos 0) hInvE1
          (show 1 ≤ endPos by omega)
        rcases hx : exec fuel ⟨cols', e.rain⟩ (.flow endPos 0) with
          ⟨b2, e2⟩ | _ | _ | _ <;> simp only [hx]
        · obtain ⟨hInv2, hlen2⟩ := hsub.2 b2 e2 hx
          by_cases hb2 : b2 > 0
          · simp only [if_pos hb2]
            exact FOut_mono (hlen2.trans hf2) (ih e2 (.flow pos b2) hInv2 hp)
          · simp only [if_neg hb2]
            exact FOut_ok hInv2 (hlen2.trans hf2)
        · exact FOut_outOfFuel e
        · exact absurd hx hsub.1
        · exact FOut_unclassified e
    | peak pos w endPos =>
      have hpk : 1 ≤ endPos := hok
      rw [exec_succ]
      simp only [execBody]
      have hsub := ih e (.flow endPos ((1 / 2) * w)) hInv hpk
      rcases hx : exec fuel e (.flow endPos ((1 / 2) * w)) with
        ⟨fb, e1⟩ | _ | _ | _ <;> simp only [hx]
      · obtain ⟨hInv1, hlen1⟩ := hsub.2 fb e1 hx
        exact FOut_ok hInv1 hlen1
      · exact FOut_outOfFuel e
      · exact absurd hx hsub.1
      · exact FOut_unclassified e
    | lPlateau pos w leftDiff =>
      obtain ⟨hp, hplen, hlt, hldq⟩ := hok
      rw [exec_succ]
      simp only [execBody]
      obtain ⟨cp, hcp⟩ := columns_get_total
        (show pos < e.columns.length by omega)
      have hcplt : cp.waterLevel < fMAX := by
        have hb := hInv.2.2.2.1 (pos - 1) (by omega)
        rw [← levelAt_eq hcp]
        linarith
      obtain ⟨out, hscan⟩ := scanPlateau_total e.columns.length e.columns pos
        (pos + 1) w e.rain cp hcp hcplt
        (fun cl hcl => by
          have := hInv.2.2.1
          rw [levelAt_eq hcl] at this
          exact this)
        (by omega) (by omega) (by omega) hInv.2.1
      obtain ⟨endPos, w1, bank1⟩ := out
      simp only [hscan]
      obtain ⟨cp', ce', hsp, hse, hsne, hsle, hslt, hseq, hslen, hsorz, hsdr,
        hssum, hsnn⟩ := scanPlateau_ok _ _ _ _ _ _ _ _ _ hscan
      rw [hcp] at hsp
      cases hsp
      have hInvE1 : Inv ⟨e.columns, bank1⟩ :=
        @Inv_same e ⟨e.columns, bank1⟩ rfl hslen hInv
      simp only [hse, hcp]
      by_cases hrd : ce'.waterLevel - cp.waterLevel > 0
      · simp only [if_pos hrd]
        refine FOut_mono rfl (ih ⟨e.columns, bank1⟩ (.valley pos w1 leftDiff
            (ce'.waterLevel - cp.waterLevel) endPos) hInvE1 ?_)
        refine ⟨hp, by omega, hslt, ?_, ?_, ?_, ?_⟩
        · exact hldq
        · rw [show levelAt ⟨e.columns, bank1⟩ endPos = ce'.waterLevel from
            levelAt_eq hse, show levelAt ⟨e.columns, bank1⟩ pos = cp.waterLevel from
            levelAt_eq hcp]
        · exact hrd
        · intro j hj1 hj2
          by_cases hje : j = pos
          · rw [hje]
          · obtain ⟨cj, hcj, hcjl⟩ := hseq j (by omega) hj2
            rw [show levelAt ⟨e.columns, bank1⟩ j = cj.waterLevel from
              levelAt_eq hcj, show levelAt ⟨e.columns, bank1⟩ pos = cp.waterLevel from
              levelAt_eq hcp]
            exact hcjl
      · simp only [if_neg hrd]
        have hsub := ih ⟨e.columns, bank1⟩ (.flow endPos w1) hInvE1
          (show 1 ≤ endPos by omega)
        rcases hx : exec fuel ⟨e.columns, bank1⟩ (.flow endPos w1) with
          ⟨bw, e2⟩ | _ | _ | _ <;> simp only [hx]
        · obtain ⟨hInv2, hlen2⟩ := hsub.2 bw e2 hx
          exact FOut_mono hlen2 (ih e2 (.flow pos bw) hInv2 hp)
        · exact FOut_outOfFuel e
        · exact absurd hx hsub.1
        · exact FOut_unclassified e
    | sPlateau pos w =>
      obtain ⟨hp, hplen, hlt⟩ := hok
      rw [exec_succ]
      simp only [execBody]
      obtain ⟨cp, hcp⟩ := columns_get_total
        (show pos < e.columns.length by omega)
      have hple : levelAt e pos ≤ fMAX := hInv.2.2.2.1 pos (by omega)
      have hcplt : cp.waterLevel < fMAX := by
        rw [← levelAt_eq hcp]
        rcases lt_or_eq_of_le hple with hlt2 | heq2
        · exact hlt2
        · exfalso
          have := hInv.2.2.2.2 pos hp hplen heq2
          rw [this] at hlt
          have : levelAt e pos ≤ fMAX := hple
          linarith
      obtain ⟨out, hscan⟩ := scanPlateau_total e.columns.length e.columns pos
        (pos + 1) w e.rain cp hcp hcplt
        (fun cl hcl => by
          have := hInv.2.2.1
          rw [levelAt_eq hcl] at this
          exact this)
        (by omega) (by omega) (by omega) hInv.2.1
      obtain ⟨endPos, w1, bank1⟩ := out
      simp only [hscan]
      obtain ⟨cp', ce', hsp, hse, hsne, hsle, hslt, hseq, hslen, hsorz, hsdr,
        hssum, hsnn⟩ := scanPlateau_ok _ _ _ _ _ _ _ _ _ hscan
      rw [hcp] at hsp
      cases hsp
      have hInvE1 : Inv ⟨e.columns, bank1⟩ :=
        @Inv_same e ⟨e.columns, bank1⟩ rfl hslen hInv
      simp only [hse, hcp]
      by_cases hrd : ce'.waterLevel - cp.waterLevel < 0
      · simp only [if_pos hrd]
        exact FOut_mono rfl (ih ⟨e.columns, bank1⟩ (.peak pos w1 endPos)
          hInvE1 (show 1 ≤ endPos by omega))
      · simp only [if_neg hrd]
        exact FOut_ok hInvE1 rfl
    | downwards pos w =>
      have hp : 1 ≤ pos := hok
      rw [exec_succ]
      simp only [execBody]
      have hsub := ih e (.flow (pos + 1) w) hInv (show 1 ≤ pos + 1 by omega)
      rcases hx : exec fuel e (.flow (pos + 1) w) with ⟨bw, e1⟩ | _ | _ | _ <;>
        simp only [hx]
      · obtain ⟨hInv1, hlen1⟩ := hsub.2 bw e1 hx
        exact FOut_mono hlen1 (ih e1 (.flow pos bw) hInv1 hp)
      · exact FOut_outOfFuel e
      · exact absurd hx hsub.1
      · exact FOut_unclassified e

end SafetyMaster

section RainDriver

theorem sum_zero_of_get? :
    ∀ (l : List ℚ), (∀ j, j < l.length → l.get? j = some 0) → l.sum = 0 := by
  intro l
  induction l with
  | nil => intro _; rfl
  | cons x xs ih =>
    intro h
    have hx : x = 0 := by
      have := h 0 (by simp)
      simpa using this
    have hxs : xs.sum = 0 := ih fun j hj => h (j + 1) (by simpa using hj)
    simp [hx, hxs]

theorem bankSum_replicate (n : ℕ) (h : ℚ) :
    bankSum (List.replicate n h) = (n : ℚ) * h := by
  simp [bankSum, List.sum_replicate, nsmul_eq_mul]

theorem bankNN_replicate (n : ℕ) (h : ℚ) (hh : 0 ≤ h) :
    bankNN (List.replicate n h) := by
  intro x hx
  rw [List.eq_of_mem_replicate hx]
  exact hh

theorem length_new (relief : List ℕ) :
    (Env.new relief).columns.length = relief.length + 2 := by
  show (Column.new fMAX ::
      ((relief.map fun (h : ℕ) => Column.new (h : ℚ)) ++ [Column.new fMAX])).length =
    relief.length + 2
  rw [List.length_cons, List.length_append, List.length_map]
  rfl

theorem waters_new :
    ∀ (l : List ℕ), (l.map fun (h : ℕ) => (Column.new (h : ℚ)).water).sum = 0 := by
  intro l
  induction l with
  | nil => rfl
  | cons x xs ih =>
    rw [List.map_cons, List.sum_cons, ih]
    show (0 : ℚ) + 0 = 0
    norm_num

theorem colWaterSum_new (relief : List ℕ) :
    colWaterSum (Env.new relief).columns = 0 := by
  show colWaterSum (Column.new fMAX ::
      ((relief.map fun (h : ℕ) => Column.new (h : ℚ)) ++ [Column.new fMAX])) = 0
  unfold colWaterSum
  rw [List.map_cons, List.sum_cons, List.map_append, List.sum_append,
    List.map_map]
  rw [show (Column.water ∘ fun h : ℕ => Column.new (h : ℚ)) =
    (fun h : ℕ => (Column.new (h : ℚ)).water) from rfl]
  rw [waters_new relief]
  show (0 : ℚ) + (0 + ((0 : ℚ) + 0)) = 0
  norm_num

/-- Driver-loop master: starting from a non-negative bank and backwater, a
successful `rainLoop` ends with backwater 0, a fully drained bank, unchanged
walls, and no more total water than it started with. -/
theorem rainLoop_ok (fuel : ℕ) :
    ∀ (e : Env) (b r : ℚ) (ef : Env),
      bankNN e.rain → 0 ≤ b →
      e.rain.length = e.columns.length - 2 →
      (b ≤ 0 → ∀ j, j < e.rain.length → e.rain.get? j = some 0) →
      rainLoop fuel e b = .ok r ef →
      r = 0 ∧
      ef.columns.length = e.columns.length ∧
      ef.rain.length = e.rain.length ∧
      ef.columns.get? 0 = e.columns.get? 0 ∧
      ef.columns.get? (e.columns.length - 1) =
        e.columns.get? (e.columns.length - 1) ∧
      (∀ j, j < ef.rain.length → ef.rain.get? j = some 0) ∧
      colWaterSum ef.columns + bankSum ef.rain ≤
        colWaterSum e.columns + bankSum e.rain + b := by
  induction fuel with
  | zero =>
    intro e b r ef _ _ _ _ h
    exact absurd h (by simp [rainLoop])
  | succ fuel ih =>
    intro e b r ef hnn hb hlen hdr h
    unfold rainLoop at h
    by_cases hbpos : b > 0
    · rw [if_pos hbpos] at h
      rcases hx : flow fuel e 1 b with ⟨b2, e2⟩ | _ | _ | _ <;> rw [hx] at h
      · obtain ⟨hb1, hb2, hb3, hb4, hb5, hb6, hb7, hb8⟩ :=
          exec_basic fuel e (.flow 1 b) b2 e2 trivial hnn hb hx
        have hdr2 : b2 ≤ 0 → ∀ j, j < e2.rain.length → e2.rain.get? j = some 0 := by
          intro hble j hj
          exact exec_drain fuel e (.flow 1 b) b2 e2 (le_refl 1) hlen hnn hb hx hble
            j (by show (1 : ℕ) - 1 ≤ j; omega) hj
        obtain ⟨g1, g2, g3, g4, g5, g6, g7⟩ :=
          ih e2 b2 r ef hb8 hb7 (by rw [hb2, hb1]; exact hlen) hdr2 h
        refine ⟨g1, g2.trans hb1, g3.trans hb2, ?_, ?_, g6, ?_⟩
        · rw [g4, hb3 0 (by show (0 : ℕ) < 1; omega)]
        · rw [hb1] at g5
          rw [g5]
          exact hb4
        · calc colWaterSum ef.columns + bankSum ef.rain ≤
              colWaterSum e2.columns + bankSum e2.rain + b2 := g7
            _ ≤ colWaterSum e.columns + bankSum e.rain + b := hb6
      · exact absurd h (by simp)
      · exact absurd h (by simp)
      · exact absurd h (by simp)
    · rw [if_neg hbpos] at h
      simp only [RRes.ok.injEq] at h
      obtain ⟨rfl, rfl⟩ := h
      have hb0 : b = 0 := le_antisymm (not_lt.mp hbpos) hb
      exact ⟨rfl, rfl, rfl, rfl, rfl, hdr (le_of_eq hb0),
        by rw [hb0]; linarith⟩

/-- Whole-run master for `Environment::rain`: on success the reported
remainder is 0, the walls and the column count are untouched, the bank is
fully drained, and the final total column water is at most the initial
total plus the whole bank `(n − 2) · h`. -/
theorem rain_run_ok (fuel : ℕ) (e : Env) (h r : ℚ) (ef : Env)
    (hh : 0 ≤ h) (hrun : Environment.rain fuel e h = .ok r ef) :
    r = 0 ∧
    ef.columns.length = e.columns.length ∧
    ef.columns.get? 0 = e.columns.get? 0 ∧
    ef.columns.get? (e.columns.length - 1) =
      e.columns.get? (e.columns.length - 1) ∧
    (∀ j, j < ef.rain.length → ef.rain.get? j = some 0) ∧
    colWaterSum ef.columns ≤
      colWaterSum e.columns + ((e.columns.length - 2 : ℕ) : ℚ) * h := by
  simp only [Environment.rain] at hrun
  rcases hx : flow fuel
      { e with rain := List.replicate (e.columns.length - 2) h } 1 0 with
    ⟨b, e2⟩ | _ | _ | _ <;> simp only [hx] at hrun
  · rcases hy : rainLoop fuel e2 b with ⟨r2, ef2⟩ | _ | _ | _ <;>
      simp only [hy] at hrun
    case ok =>
      simp only [RRes.ok.injEq] at hrun
      obtain ⟨rfl, rfl⟩ := hrun
      have hnn1 : bankNN (List.replicate (e.columns.length - 2) h) :=
        bankNN_replicate _ h hh
      obtain ⟨hb1, hb2, hb3, hb4, hb5, hb6, hb7, hb8⟩ :=
        exec_basic fuel _ (.flow 1 0) b e2 trivial hnn1 (le_refl 0) hx
      have hdr2 : b ≤ 0 → ∀ j, j < e2.rain.length → e2.rain.get? j = some 0 := by
        intro hble j hj
        exact exec_drain fuel _ (.flow 1 0) b e2 (le_refl 1)
          (by simp) hnn1 (le_refl 0) hx hble j (by show (1 : ℕ) - 1 ≤ j; omega) hj
      have hL1 : e2.columns.length = e.columns.length := hb1
      have hL2 : e2.rain.length = e.columns.length - 2 := by
        rw [hb2]
        simp
      obtain ⟨g1, g2, g3, g4, g5, g6, g7⟩ :=
        rainLoop_ok fuel e2 b r2 ef2 hb8 hb7 (by rw [hL2, hL1]) hdr2 hy
      refine ⟨rfl, g2.trans hL1, ?_, ?_, g6, ?_⟩
      · rw [g4]
        exact hb3 0 (by show (0 : ℕ) < 1; omega)
      · rw [hL1] at g5
        rw [g5]
        exact hb4
      · have hefz : bankSum ef2.rain = 0 := by
          apply sum_zero_of_get?
          intro j hj
          exact g6 j hj
        have hchain : colWaterSum ef2.columns + bankSum ef2.rain ≤
            colWaterSum e2.columns + bankSum e2.rain + b := g7
        have hstart : colWaterSum e2.columns + bankSum e2.rain + b ≤
            colWaterSum e.columns +
              bankSum (List.replicate (e.columns.length - 2) h) + 0 := hb6
        rw [bankSum_replicate] at hstart
        rw [hefz] at hchain
        linarith
    all_goals exact absurd hrun (by simp)
  all_goals exact absurd hrun (by simp)

end RainDriver

section ConcreteRuns

/-- The looping state of the diverging run on relief `[0, 0, 1]` with
`rain_hours = f32::MAX`: all water levels equal `fMAX` and the driver's
backwater is stuck at 1. -/
def Sstar : Env :=
  ⟨[⟨fMAX, 0⟩, ⟨0, fMAX⟩, ⟨0, fMAX⟩, ⟨1, fMAX - 1⟩, ⟨fMAX, 0⟩], [0, 0, 0]⟩

unseal Rat.add Rat.sub Rat.mul Rat.inv in
theorem flow_pass_one : exec 30 ⟨(Env.new [0, 0, 1]).columns,
    List.replicate 3 fMAX⟩ (.flow 1 0) = .ok 1 Sstar := by
  decide

unseal Rat.add Rat.sub Rat.mul Rat.inv in
theorem flow_star_one : exec 1 Sstar (.flow 1 1) = .ok 1 Sstar := by
  decide

theorem flow_star (fuel : ℕ) : exec (fuel + 1) Sstar (.flow 1 1) = .ok 1 Sstar := by
  have h1 := flow_star_one
  have h2 := exec_stable_le (f := 1) (g := fuel + 1) (by omega) Sstar (.flow 1 1)
    (by rw [h1]; exact fun hh => RRes.noConfusion hh)
  rw [h2, h1]

theorem rainLoop_stuck : ∀ fuel, rainLoop fuel Sstar 1 = .outOfFuel := by
  intro fuel
  induction fuel with
  | zero => rfl
  | succ fuel ih =>
    unfold rainLoop
    rw [if_pos (by norm_num : (1 : ℚ) > 0)]
    cases fuel with
    | zero => rfl
    | succ f =>
      rw [show flow (f + 1) Sstar 1 1 = .ok 1 Sstar from flow_star f]
      exact ih

end ConcreteRuns

section IndexSafety

theorem get?_new_wall_left (relief : List ℕ) :
    (Env.new relief).columns.get? 0 = some (Column.new fMAX) := rfl

theorem get?_new_interior (relief : List ℕ) (i : ℕ) (hi : i < relief.length) :
    (Env.new relief).columns.get? (i + 1) =
      (relief.get? i).map fun (x : ℕ) => Column.new (x : ℚ) := by
  show (Column.new fMAX ::
      ((relief.map fun (h : ℕ) => Column.new (h : ℚ)) ++ [Column.new fMAX])).get? (i + 1) =
    (relief.get? i).map fun (x : ℕ) => Column.new (x : ℚ)
  rw [List.get?_cons_succ, List.get?_append (by rw [List.length_map]; exact hi),
    List.get?_map]

theorem get?_new_wall_right (relief : List ℕ) :
    (Env.new relief).columns.get? (relief.length + 1) = some (Column.new fMAX) := by
  show (Column.new fMAX ::
      ((relief.map fun (h : ℕ) => Column.new (h : ℚ)) ++ [Column.new fMAX])).get? (relief.length + 1) =
    some (Column.new fMAX)
  rw [List.get?_cons_succ,
    List.get?_append_right (by rw [List.length_map])]
  rw [List.length_map]
  simp

/-- A freshly built environment with every interior height strictly below
the wall height satisfies the safety invariant, whatever the bank holds. -/
theorem Inv_new (relief : List ℕ) (bank : List ℚ)
    (hlt : ∀ x ∈ relief, (x : ℚ) < fMAX)
    (hblen : bank.length = relief.length) :
    Inv ⟨(Env.new relief).columns, bank⟩ := by
  have hlen : (Env.new relief).columns.length = relief.length + 2 :=
    length_new relief
  have hwl : Column.waterLevel (Column.new fMAX) = fMAX := by
    simp [Column.new, Column.waterLevel]
  have hlvl : ∀ i, i < relief.length + 2 →
      levelAt ⟨(Env.new relief).columns, bank⟩ i = fMAX ∨
      (1 ≤ i ∧ i ≤ relief.length ∧
        levelAt ⟨(Env.new relief).columns, bank⟩ i < fMAX) := by
    intro i hi
    rcases Nat.eq_zero_or_pos i with rfl | hpos
    · left
      rw [show levelAt ⟨(Env.new relief).columns, bank⟩ 0 =
          Column.waterLevel (Column.new fMAX) from
        levelAt_eq (show (Env.mk (Env.new relief).columns bank).columns.get? 0 =
          some (Column.new fMAX) from get?_new_wall_left relief), hwl]
    · by_cases hlast : i = relief.length + 1
      · left
        subst hlast
        rw [show levelAt ⟨(Env.new relief).columns, bank⟩ (relief.length + 1) =
            Column.waterLevel (Column.new fMAX) from
          levelAt_eq (show (Env.mk (Env.new relief).columns bank).columns.get? (relief.length + 1) =
            some (Column.new fMAX) from get?_new_wall_right relief), hwl]
      · right
        have hii : i - 1 < relief.length := by omega
        obtain ⟨x, hx⟩ : ∃ x, relief.get? (i - 1) = some x :=
          ⟨_, List.get?_eq_get hii⟩
        have hg := get?_new_interior relief (i - 1) hii
        rw [hx] at hg
        simp only [Option.map_some'] at hg
        rw [show i - 1 + 1 = i by omega] at hg
        have hg2 : (Env.mk (Env.new relief).columns bank).columns.get? i =
            some (Column.new (x : ℚ)) := hg
        refine ⟨by omega, by omega, ?_⟩
        rw [levelAt_eq hg2]
        have hxin : x ∈ relief := List.get?_mem hx
        have := hlt x hxin
        show (x : ℚ) + 0 < fMAX
        linarith
  refine ⟨by rw [hlen]; omega, by rw [hlen, hblen]; omega, ?_, ?_, ?_⟩
  · rw [hlen, show relief.length + 2 - 1 = relief.length + 1 by omega]
    rw [show levelAt ⟨(Env.new relief).columns, bank⟩ (relief.length + 1) =
        Column.waterLevel (Column.new fMAX) from
      levelAt_eq (show (Env.mk (Env.new relief).columns bank).columns.get? (relief.length + 1) =
        some (Column.new fMAX) from get?_new_wall_right relief), hwl]
  · intro i hi
    rw [hlen] at hi
    rcases hlvl i hi with hf | ⟨_, _, hs⟩
    · rw [hf]
    · exact le_of_lt hs
  · intro i h1 h2 hf
    rw [hlen] at h2
    exfalso
    have hii : i - 1 < relief.length := by omega
    obtain ⟨x, hx⟩ : ∃ x, relief.get? (i - 1) = some x :=
      ⟨_, List.get?_eq_get hii⟩
    have hg := get?_new_interior relief (i - 1) hii
    rw [hx] at hg
    simp only [Option.map_some'] at hg
    rw [show i - 1 + 1 = i by omega] at hg
    have hg2 : (Env.mk (Env.new relief).columns bank).columns.get? i =
        some (Column.new (x : ℚ)) := hg
    rw [levelAt_eq hg2] at hf
    have hf2 : (x : ℚ) + 0 = fMAX := hf
    have hxin : x ∈ relief := List.get?_mem hx
    have := hlt x hxin
    linarith

theorem rainLoop_no_idx (fuel : ℕ) :
    ∀ (e : Env) (b : ℚ), Inv e → rainLoop fuel e b ≠ .idxErr := by
  induction fuel with
  | zero =>
    intro e b _
    simp [rainLoop]
  | succ fuel ih =>
    intro e b hInv
    unfold rainLoop
    by_cases hb : b > 0
    · rw [if_pos hb]
      have hout := exec_no_oob fuel e (.flow 1 b) hInv (le_refl 1)
      rcases hx : flow fuel e 1 b with ⟨b2, e2⟩ | _ | _ | _
      · obtain ⟨hInv2, _⟩ := hout.2 b2 e2 hx
        exact ih e2 b2 hInv2
      · exact fun hh => RRes.noConfusion hh
      · exact absurd hx hout.1
      · exact fun hh => RRes.noConfusion hh
    · rw [if_neg hb]
      exact fun hh => RRes.noConfusion hh

end IndexSafety

section HandlerClaims

/-- The continuation of `handle_valley` after its deposit loop, verbatim
from the source: decide whether the remainder is backwater, a retry at
`pos`, or an even split with a forward `flow(end_pos, ...)`. -/
def valleyAfterDeposit (rec : Env → Call → RRes) (e1 : Env) (pos : ℕ)
    (w' leftDiff rightDiff : ℚ) (endPos : ℕ) : RRes :=
  if w' > 0 then
    if rightDiff > leftDiff then .ok w' e1
    else if rightDiff < leftDiff then rec e1 (.flow pos w')
    else
      match rec e1 (.flow endPos (w' * (1 / 2))) with
      | .ok fb e2 => .ok ((1 / 2) * w' + fb) e2
      | err => err
  else
    match rec e1 (.flow endPos 0) with
    | .ok b2 e2 => if b2 > 0 then rec e2 (.flow pos b2) else .ok 0 e2
    | err => err

/-- C4: whenever the valley handler runs at `pos` with packet `w`, rim
differences `leftDiff`/`rightDiff` and scan end `endPos`, its deposit loop
succeeds and adds exactly
`new_water = min (w / (endPos − pos)) (min leftDiff rightDiff)` to every
column of `[pos, endPos)`, leaves every other column alone, decreases the
packet by `(endPos − pos) · new_water`, and the handler then continues with
exactly the source's remainder logic on the updated columns. -/
theorem handle_valley_deposit (fuel : ℕ) (e : Env) (pos : ℕ)
    (w leftDiff rightDiff : ℚ) (endPos : ℕ)
    (hpe : pos < endPos) (hend : endPos ≤ e.columns.length) :
    ∃ cols' w',
      valleyFill e.columns pos (endPos - pos)
        (min (w / ((endPos - pos : ℕ) : ℚ)) (min leftDiff rightDiff)) w =
        some (cols', w') ∧
      w' = w - ((endPos - pos : ℕ) : ℚ) *
        min (w / ((endPos - pos : ℕ) : ℚ)) (min leftDiff rightDiff) ∧
      (∀ j, pos ≤ j → j < endPos → cols'.get? j =
        (e.columns.get? j).map fun c =>
          c.addWater (min (w / ((endPos - pos : ℕ) : ℚ)) (min leftDiff rightDiff))) ∧
      (∀ j, j < pos ∨ endPos ≤ j → cols'.get? j = e.columns.get? j) ∧
      handle_valley (fuel + 1) e pos w leftDiff rightDiff endPos =
        valleyAfterDeposit (exec fuel) ⟨cols', e.rain⟩ pos w' leftDiff rightDiff
          endPos := by
  obtain ⟨out, heqf⟩ := valleyFill_total (endPos - pos) e.columns pos
    (min (w / ((endPos - pos : ℕ) : ℚ)) (min leftDiff rightDiff)) w (by omega)
  obtain ⟨cols', w'⟩ := out
  obtain ⟨hf1, hf2, hf3, hf4, hf5⟩ := valleyFill_ok _ _ _ _ _ _ _ heqf
  refine ⟨cols', w', heqf, hf1, ?_, ?_, ?_⟩
  · intro j hj1 hj2
    exact hf4 j hj1 (by omega)
  · intro j hj
    exact hf3 j (by omega)
  · unfold handle_valley
    rw [exec_succ]
    simp only [execBody, heqf, valleyAfterDeposit]

/-- C5: once the valley is filled and a remainder `w' > 0` is left,
`handle_valley` returns it as backwater when the right rim is higher,
retries `flow(pos, w')` when the left rim is higher, and on equal rims
returns `w'/2` plus the backwater of the forward call
`flow(endPos, w'/2)`. -/
theorem handle_valley_remainder (fuel : ℕ) (e : Env) (pos : ℕ)
    (w leftDiff rightDiff : ℚ) (endPos : ℕ) (cols' : List Column) (w' : ℚ)
    (hfill : valleyFill e.columns pos (endPos - pos)
      (min (w / ((endPos - pos : ℕ) : ℚ)) (min leftDiff rightDiff)) w =
      some (cols', w'))
    (hw' : 0 < w') :
    (leftDiff < rightDiff →
      handle_valley (fuel + 1) e pos w leftDiff rightDiff endPos =
        .ok w' ⟨cols', e.rain⟩) ∧
    (rightDiff < leftDiff →
      handle_valley (fuel + 1) e pos w leftDiff rightDiff endPos =
        exec fuel ⟨cols', e.rain⟩ (.flow pos w')) ∧
    (rightDiff = leftDiff → ∀ fb e2,
      exec fuel ⟨cols', e.rain⟩ (.flow endPos (w' * (1 / 2))) = .ok fb e2 →
      handle_valley (fuel + 1) e pos w leftDiff rightDiff endPos =
        .ok ((1 / 2) * w' + fb) e2) := by
  refine ⟨?_, ?_, ?_⟩
  · intro hlr
    unfold handle_valley
    rw [exec_succ]
    simp only [execBody, hfill]
    rw [if_pos hw', if_pos hlr]
  · intro hrl
    unfold handle_valley
    rw [exec_succ]
    simp only [execBody, hfill]
    rw [if_pos hw', if_neg (by exact not_lt.mpr (le_of_lt hrl)), if_pos hrl]
  · intro heq fb e2 hsub
    unfold handle_valley
    rw [exec_succ]
    simp only [execBody, hfill]
    rw [if_pos hw', if_neg (by rw [heq]; exact lt_irrefl _),
      if_neg (by rw [heq]; exact lt_irrefl _)]
    simp only [hsub]

/-- C6: a packet striking a peak is split exactly in half — the handler
deposits nothing itself, sends `flow(endPos, w/2)` forward and returns
`w/2` plus that call's backwater — and an S-plateau forwards its scanned
packet to the peak handler when it ends in a descent, while a plateau
ending in an ascent returns the whole accumulated packet as backwater with
the columns untouched. -/
theorem peak_split_and_s_plateau :
    (∀ (fuel : ℕ) (e : Env) (pos : ℕ) (w : ℚ) (endPos : ℕ) (fb : ℚ) (e1 : Env),
      exec fuel e (.flow endPos ((1 / 2) * w)) = .ok fb e1 →
      handle_peak (fuel + 1) e pos w endPos = .ok ((1 / 2) * w + fb) e1) ∧
    (∀ (fuel : ℕ) (e : Env) (pos : ℕ) (w : ℚ) (endPos : ℕ) (w1 : ℚ)
        (bank1 : List ℚ) (ce cp : Column),
      scanPlateau e.columns pos e.columns.length (pos + 1) w e.rain =
        some (endPos, w1, bank1) →
      e.columns.get? endPos = some ce → e.columns.get? pos = some cp →
      (ce.waterLevel - cp.waterLevel < 0 →
        handle_s_plateau (fuel + 1) e pos w =
          exec fuel ⟨e.columns, bank1⟩ (.peak pos w1 endPos)) ∧
      (¬ ce.waterLevel - cp.waterLevel < 0 →
        handle_s_plateau (fuel + 1) e pos w = .ok w1 ⟨e.columns, bank1⟩)) := by
  constructor
  · intro fuel e pos w endPos fb e1 hsub
    unfold handle_peak
    rw [exec_succ]
    simp only [execBody, hsub]
  · intro fuel e pos w endPos w1 bank1 ce cp hscan hce hcp
    constructor
    · intro hdesc
      unfold handle_s_plateau
      rw [exec_succ]
      simp only [execBody, hscan, hce, hcp]
      rw [if_pos hdesc]
    · intro hasc
      unfold handle_s_plateau
      rw [exec_succ]
      simp only [execBody, hscan, hce, hcp]
      rw [if_neg hasc]

end HandlerClaims

set_option maxRecDepth 1000000

section ClaimSupport

/-- Final state of the small run `rain(1)` on relief `[1]`. -/
def EFw : Env := ⟨[⟨fMAX, 0⟩, ⟨1, 1⟩, ⟨fMAX, 0⟩], [0]⟩

unseal Rat.add Rat.sub Rat.mul Rat.inv in
theorem rain_run_single : Environment.rain 10 (Env.new [1]) 1 = .ok 0 EFw := by
  decide

/-- Final state of the run on relief `[1,…,9]` with one hour of rain. -/
def EF8 : Env :=
  ⟨[⟨fMAX, 0⟩, ⟨1, 15/4⟩, ⟨2, 11/4⟩, ⟨3, 7/4⟩, ⟨4, 3/4⟩, ⟨5, 0⟩, ⟨6, 0⟩,
    ⟨7, 0⟩, ⟨8, 0⟩, ⟨9, 0⟩, ⟨fMAX, 0⟩], List.replicate 9 0⟩

/-- Final state of the run on relief `[0]` with `rain_hours = f32::MAX`:
the single interior column ends exactly at the walls' water level.  Every
`f32` operation of this run is exact (`MAX / 1`, `0 + MAX`, `MAX - MAX`;
no two wall-sized values are ever added), so the real program terminates
with this very state. -/
def EF10 : Env :=
  ⟨[⟨fMAX, 0⟩, ⟨0, fMAX⟩, ⟨fMAX, 0⟩], [0]⟩

end ClaimSupport

section Claims

/-- C1 (amended): for every relief and every rain budget `h ≥ 0`, when
`Environment::rain` returns, the reported remainder is 0, every rain-bank
entry is exactly 0, and the total water held by the columns is AT MOST
`h · n` — the sub-`EPSILON` branch of `flow` can destroy water (see the
counterexample), so only the upper bound of the spec's conservation law
holds. -/
theorem rain_drains_and_bounds_water (fuel : ℕ) (relief : List ℕ)
    (h r : ℚ) (ef : Env) (hh : 0 ≤ h)
    (hrun : Environment.rain fuel (Env.new relief) h = .ok r ef) :
    r = 0 ∧
    (∀ j, j < ef.rain.length → ef.rain.get? j = some 0) ∧
    colWaterSum ef.columns ≤ (relief.length : ℚ) * h := by
  obtain ⟨g1, g2, g3, g4, g5, g6⟩ :=
    rain_run_ok fuel (Env.new relief) h r ef hh hrun
  refine ⟨g1, g5, ?_⟩
  rw [colWaterSum_new, length_new] at g6
  rw [show relief.length + 2 - 2 = relief.length from by omega] at g6
  linarith

/-- Witness for C1's amended theorem on the run `rain(1)` over relief
`[1]`. -/
theorem rain_drains_and_bounds_water_witness :
    (0 : ℚ) = 0 ∧
    (∀ j, j < EFw.rain.length → EFw.rain.get? j = some 0) ∧
    colWaterSum EFw.columns ≤ (([1] : List ℕ).length : ℚ) * 1 :=
  rain_drains_and_bounds_water 10 [1] 1 0 EFw (by norm_num) rain_run_single

unseal Rat.add Rat.sub Rat.mul Rat.inv in
/-- C1 counterexample: on 101 interior columns of height 0 with
`h = 10⁻⁷` per column, every packet is below `f32::EPSILON`, so `flow`
discards all of it: the run returns with zero column water although
`n·h = 1.01·10⁻⁵` exceeds the spec's `10⁻⁵` tolerance — exact conservation
fails. -/
theorem rain_conservation_counterexample :
    Environment.rain 120 (Env.new (List.replicate 101 0)) (1 / 10 ^ 7) =
      .ok 0 ⟨(Env.new (List.replicate 101 0)).columns, List.replicate 101 0⟩ ∧
    colWaterSum (Env.new (List.replicate 101 0)).columns = 0 ∧
    (1 / 10 ^ 5 : ℚ) <
      ((List.replicate 101 (0 : ℕ)).length : ℚ) * (1 / 10 ^ 7) := by
  refine ⟨by decide, colWaterSum_new _, ?_⟩
  rw [List.length_replicate]
  norm_num

/-- C2 (code bug): on relief `[0, 0, 1]` with `rain_hours = f32::MAX` the
driver loop of `Environment::rain` never terminates — at every fuel budget
the fuel-indexed interpreter runs out of fuel, because the state reaches a
fixpoint in which `flow(1, 1)` returns backwater 1 for ever. -/
theorem rain_diverges_on_step_relief :
    ∀ fuel, Environment.rain fuel (Env.new [0, 0, 1]) fMAX = .outOfFuel := by
  intro fuel
  have hE : ({ Env.new [0, 0, 1] with
      rain := List.replicate ((Env.new [0, 0, 1]).columns.length - 2) fMAX } :
        Env) =
      ⟨(Env.new [0, 0, 1]).columns, List.replicate 3 fMAX⟩ := by decide
  simp only [Environment.rain]
  rw [hE]
  have h30 : exec 30
      (⟨(Env.new [0, 0, 1]).columns, List.replicate 3 fMAX⟩ : Env)
      (.flow 1 0) = .ok 1 Sstar := flow_pass_one
  rcases exec_agree fuel
      (⟨(Env.new [0, 0, 1]).columns, List.replicate 3 fMAX⟩ : Env) (.flow 1 0)
      (by rw [h30]; exact fun hh => RRes.noConfusion hh) with hof | heq
  · have hof2 : flow fuel
        (⟨(Env.new [0, 0, 1]).columns, List.replicate 3 fMAX⟩ : Env) 1 0 =
        .outOfFuel := hof
    simp only [hof2]
  · have heq2 : flow fuel
        (⟨(Env.new [0, 0, 1]).columns, List.replicate 3 fMAX⟩ : Env) 1 0 =
        .ok 1 Sstar := by
      rw [show flow fuel
          (⟨(Env.new [0, 0, 1]).columns, List.replicate 3 fMAX⟩ : Env) 1 0 =
        exec fuel (⟨(Env.new [0, 0, 1]).columns, List.replicate 3 fMAX⟩ : Env)
          (.flow 1 0) from rfl, heq, h30]
    simp only [heq2]
    rw [rainLoop_stuck fuel]

/-- C3: the seven-branch dispatch of `flow` is total — every `(<,=,>)`
combination of the two side comparisons selects exactly one handler (one,
because `classify` is a function) — and consequently the trailing
`unimplemented!` branch is unreachable: no run of the engine ever returns
the `unclassified` outcome. -/
theorem dispatch_total_and_no_abort :
    (∀ p c n : ℚ, ∃ t, classify p c n = some t) ∧
    (∀ (fuel : ℕ) (e : Env) (c : Call), exec fuel e c ≠ .unclassified) :=
  ⟨classify_total, fun fuel e c => exec_no_unclassified fuel e c⟩

/-- C7: a completed `Environment::rain` leaves the column count unchanged
and the two sentinel walls untouched — the first and last column, height
and water alike, are identical before and after the run. -/
theorem rain_preserves_walls (fuel : ℕ) (e : Env) (h r : ℚ) (ef : Env)
    (hh : 0 ≤ h) (hrun : Environment.rain fuel e h = .ok r ef) :
    ef.columns.length = e.columns.length ∧
    ef.columns.get? 0 = e.columns.get? 0 ∧
    ef.columns.get? (e.columns.length - 1) =
      e.columns.get? (e.columns.length - 1) := by
  obtain ⟨_, g2, g3, g4, _, _⟩ := rain_run_ok fuel e h r ef hh hrun
  exact ⟨g2, g3, g4⟩

/-- Witness for C7 on the run `rain(1)` over relief `[1]`. -/
theorem rain_preserves_walls_witness :
    EFw.columns.length = (Env.new [1]).columns.length ∧
    EFw.columns.get? 0 = (Env.new [1]).columns.get? 0 ∧
    EFw.columns.get? ((Env.new [1]).columns.length - 1) =
      (Env.new [1]).columns.get? ((Env.new [1]).columns.length - 1) :=
  rain_preserves_walls 10 (Env.new [1]) 1 0 EFw (by norm_num) rain_run_single

unseal Rat.add Rat.sub Rat.mul Rat.inv in
/-- C8: on the interior relief `[1,…,9]` with one hour of rain the engine
terminates with remainder 0 and the final interior water levels are exactly
`[4.75, 4.75, 4.75, 4.75, 5, 6, 7, 8, 9]` — equality is exact, hence well
within the spec's `10⁻⁵` tolerance, as the last conjunct states
explicitly. -/
theorem rain_staircase_example :
    Environment.rain 33 (Env.new [1, 2, 3, 4, 5, 6, 7, 8, 9]) 1 = .ok 0 EF8 ∧
    interiorLevels EF8 = [19/4, 19/4, 19/4, 19/4, 5, 6, 7, 8, 9] ∧
    ∀ p ∈ List.zip (interiorLevels EF8)
      [19/4, 19/4, 19/4, 19/4, 5, 6, 7, 8, 9],
      p.1 - p.2 ≤ 1 / 100000 ∧ p.2 - p.1 ≤ 1 / 100000 := by
  refine ⟨by decide, by decide, by decide⟩

/-- C9: whenever `Environment::rain` returns at all, the value it reports
is the hard-coded constant 0 — for every environment and budget, not
computed from the final state. -/
theorem rain_returns_zero (fuel : ℕ) (e : Env) (h r : ℚ) (ef : Env)
    (hrun : Environment.rain fuel e h = .ok r ef) : r = 0 := by
  simp only [Environment.rain] at hrun
  rcases hx : flow fuel
      { e with rain := List.replicate (e.columns.length - 2) h } 1 0 with
    ⟨b, e2⟩ | _ | _ | _ <;> simp only [hx] at hrun
  · rcases hy : rainLoop fuel e2 b with ⟨r2, ef2⟩ | _ | _ | _ <;>
      simp only [hy] at hrun
    · simp only [RRes.ok.injEq] at hrun
      exact hrun.1.symm
    all_goals exact absurd hrun (by simp)
  all_goals exact absurd hrun (by simp)

/-- Witness for C9 on the run `rain(1)` over relief `[1]`. -/
theorem rain_returns_zero_witness : (0 : ℚ) = 0 :=
  rain_returns_zero 10 (Env.new [1]) 1 0 EFw rain_run_single

/-- C10 (amended): for every relief whose interior heights lie strictly
below the wall height — true of all `u32` inputs — no run of
`Environment::rain` ever takes the out-of-bounds branch of the embedding:
every index used by `flow`, `new_rain` and the plateau scans stays in
bounds.  The spec's reason is corrected: an interior column CAN reach the
walls' water level (see the counterexample, where every `f32` operation
of the run is exact); the scans still stop at or before the right wall
because a scan only starts from a column strictly below `fMAX` and
wall-level interior columns always chain to the left wall. -/
theorem rain_no_index_panic (fuel : ℕ) (relief : List ℕ) (h : ℚ)
    (hlt : ∀ x ∈ relief, (x : ℚ) < fMAX) :
    Environment.rain fuel (Env.new relief) h ≠ .idxErr := by
  have hblen : (List.replicate ((Env.new relief).columns.length - 2) h).length =
      relief.length := by
    rw [List.length_replicate, length_new]
    omega
  have hInv1 : Inv ⟨(Env.new relief).columns,
      List.replicate ((Env.new relief).columns.length - 2) h⟩ :=
    Inv_new relief _ hlt hblen
  have hout := exec_no_oob fuel
    ⟨(Env.new relief).columns,
      List.replicate ((Env.new relief).columns.length - 2) h⟩
    (.flow 1 0) hInv1 (le_refl 1)
  intro hcon
  simp only [Environment.rain] at hcon
  rcases hx : flow fuel
      { Env.new relief with
        rain := List.replicate ((Env.new relief).columns.length - 2) h } 1 0
    with ⟨b, e2⟩ | _ | _ | _ <;> simp only [hx] at hcon
  · obtain ⟨hInv2, _⟩ := hout.2 b e2 hx
    rcases hy : rainLoop fuel e2 b with ⟨r2, ef2⟩ | _ | _ | _ <;>
      simp only [hy] at hcon
    · exact RRes.noConfusion hcon
    · exact RRes.noConfusion hcon
    · exact absurd hy (rainLoop_no_idx fuel e2 b hInv2)
    · exact RRes.noConfusion hcon
  · exact RRes.noConfusion hcon
  · exact absurd hx hout.1
  · exact RRes.noConfusion hcon

/-- Witness for C10's amended theorem on relief `[1]`. -/
theorem rain_no_index_panic_witness :
    Environment.rain 10 (Env.new [1]) 1 ≠ .idxErr :=
  rain_no_index_panic 10 [1] 1 (by
    intro x hx
    rw [List.mem_singleton] at hx
    subst hx
    decide)

unseal Rat.add Rat.sub Rat.mul Rat.inv in
/-- C10 counterexample: on relief `[0]` with `rain_hours = f32::MAX` the
run terminates with the interior water level exactly equal to the walls'
level `fMAX` — refuting the claim's reason that "the wall's water level
never equals an interior column's".  All arithmetic of this run is exact
in `f32` (the valley handler computes `MAX / 1`, `0 + MAX` and
`MAX - MAX`, never `MAX + MAX`), so the exact-rational embedding computes
the real program's behaviour at this input. -/
theorem wall_level_reached_cex :
    Environment.rain 10 (Env.new [0]) fMAX = .ok 0 EF10 ∧
    interiorLevels EF10 = [fMAX] ∧
    levelAt EF10 0 = fMAX ∧ levelAt EF10 2 = fMAX ∧
    levelAt EF10 1 = levelAt EF10 0 := by
  refine ⟨by decide, by decide, by decide, by decide, by decide⟩

/-- Witness for C4 at `fuel 0`, relief `[0]`, `pos 1`, `w 1`, rims `1`/`1`,
`endPos 2`. -/
theorem handle_valley_deposit_witness :
    ∃ cols' w',
      valleyFill (Env.new [0]).columns 1 (2 - 1)
        (min ((1 : ℚ) / ((2 - 1 : ℕ) : ℚ)) (min 1 1)) 1 = some (cols', w') ∧
      w' = 1 - ((2 - 1 : ℕ) : ℚ) *
        min ((1 : ℚ) / ((2 - 1 : ℕ) : ℚ)) (min 1 1) ∧
      (∀ j, 1 ≤ j → j < 2 → cols'.get? j =
        ((Env.new [0]).columns.get? j).map fun c =>
          c.addWater (min ((1 : ℚ) / ((2 - 1 : ℕ) : ℚ)) (min 1 1))) ∧
      (∀ j, j < 1 ∨ 2 ≤ j → cols'.get? j = (Env.new [0]).columns.get? j) ∧
      handle_valley (0 + 1) (Env.new [0]) 1 1 1 1 2 =
        valleyAfterDeposit (exec 0) ⟨cols', (Env.new [0]).rain⟩ 1 w' 1 1 2 :=
  handle_valley_deposit 0 (Env.new [0]) 1 1 1 1 2 (by omega) (by decide)

unseal Rat.add Rat.sub Rat.mul Rat.inv in
/-- Witness for C5 at `fuel 0`, relief `[0]`, `pos 1`, `w 3`, rims `1`/`1`,
`endPos 2`: the fill deposits 1 and leaves remainder 2. -/
theorem handle_valley_remainder_witness :
    ((1 : ℚ) < 1 →
      handle_valley (0 + 1) (Env.new [0]) 1 3 1 1 2 =
        .ok 2 ⟨[⟨fMAX, 0⟩, ⟨0, 1⟩, ⟨fMAX, 0⟩], (Env.new [0]).rain⟩) ∧
    ((1 : ℚ) < 1 →
      handle_valley (0 + 1) (Env.new [0]) 1 3 1 1 2 =
        exec 0 ⟨[⟨fMAX, 0⟩, ⟨0, 1⟩, ⟨fMAX, 0⟩], (Env.new [0]).rain⟩
          (.flow 1 2)) ∧
    ((1 : ℚ) = 1 → ∀ fb e2,
      exec 0 ⟨[⟨fMAX, 0⟩, ⟨0, 1⟩, ⟨fMAX, 0⟩], (Env.new [0]).rain⟩
        (.flow 2 (2 * (1 / 2))) = .ok fb e2 →
      handle_valley (0 + 1) (Env.new [0]) 1 3 1 1 2 =
        .ok ((1 / 2) * 2 + fb) e2) :=
  handle_valley_remainder 0 (Env.new [0]) 1 3 1 1 2
    [⟨fMAX, 0⟩, ⟨0, 1⟩, ⟨fMAX, 0⟩] 2 (by decide) (by norm_num)

end Claims

end Rainwater
